import Mathlib

/-!
Verification of the candidate-selection step of beam-style sequence decoding
(`fairseq/search.py`): `BeamSearch`, `LengthConstrainedBeamSearch`,
`DiverseBeamSearch`, `Sampling` (with top-k / top-p truncation) and
`DiverseSiblingsSearch`.

Modelling conventions.
* A log-probability tensor of shape `(bsz, beam, vocab)` is modelled per batch
  element as `List (List ERat)` (beam rows over the vocabulary); every torch
  operation used by the source acts independently on batch rows, so the batch
  dimension is a `List.zipWith` of the per-element function (`stepBatch`
  wrappers below).
* Scores are `ERat := WithBot ℚ`: finite log-probabilities together with the
  `-math.inf` masking sentinel (`⊥`).
* `torch.topk` / `torch.sort(descending=True)` are modelled by a deterministic
  selection that orders by value descending and breaks ties by smaller index
  (a stable realisation of the implementation-defined tie order).
* `torch.multinomial` outcomes are supplied by an oracle `draw : ℕ → ℕ`
  (one drawn category per output slot); the real exponential/logarithm pair of
  `Sampling` is abstracted by function parameters `expF`/`logF` since no claim
  depends on their values.
* Fallible torch operations are rendered with `Option`: `none` models a raised
  Python exception (`torch.topk` with `k` larger than the dimension,
  `DiverseBeamSearch`'s divisibility `ValueError`, and the `AttributeError`
  raised at `lprobs = logprob.clone()` when `logprob` is still `None`).
-/

/-- Score values: elements of a linearly ordered ring (the model of the
source's floats; `ℚ` is the canonical instance) extended with the
`-math.inf` masking sentinel (`⊥`).  Witness computations instantiate the
ring with `ℤ`. -/
abbrev ERat := WithBot ℚ

/-- Candidate ordering used by the `torch.topk` model: `a` comes strictly
before `b` if its value is larger, or the values are equal and `a` has the
smaller index (stable tie-break). -/
def cLT {α : Type} [LinearOrder α] (a b : α × ℕ) : Prop :=
  b.1 < a.1 ∨ (a.1 = b.1 ∧ a.2 < b.2)

instance instDecidableCLT {α : Type} [LinearOrder α] (a b : α × ℕ) :
    Decidable (cLT a b) := by
  unfold cLT; infer_instance

/-- Fold selecting the best candidate (largest value, ties to smaller index). -/
def pickBest {α : Type} [LinearOrder α] (c : α × ℕ) (l : List (α × ℕ)) : α × ℕ :=
  l.foldl (fun b d => if cLT d b then d else b) c

/-- Selection core of the `torch.topk` model: repeatedly extract the best
remaining candidate, `k` times. -/
def topSelect {α : Type} [LinearOrder α] [DecidableEq α] :
    ℕ → List (α × ℕ) → List (α × ℕ)
  | 0, _ => []
  | _ + 1, [] => []
  | k + 1, c :: cs =>
    let b := pickBest c cs
    b :: topSelect k ((c :: cs).erase b)

/-- Pair each list element with its index, starting from `n`. -/
def withIdxFrom {α : Type} (n : ℕ) : List α → List (α × ℕ)
  | [] => []
  | x :: xs => (x, n) :: withIdxFrom (n + 1) xs

/-- Model of `torch.topk(xs, k)` on one row: the `k` largest values together
with their indices, in descending order (ties resolved to the smaller index).
The caller is responsible for `k ≤ xs.length` (torch raises otherwise). -/
def topk {α : Type} [LinearOrder α] [DecidableEq α] (k : ℕ) (xs : List α) :
    List (α × ℕ) :=
  topSelect k (withIdxFrom 0 xs)

/-- Vocabulary size read off a per-batch-element block, mirroring
`bsz, beam_size, vocab_size = lprobs.size()`. -/
def vocabOf {α : Type} (lprobs : List (List α)) : ℕ := (lprobs.headD []).length

/-- The column `scores[:, :, step - 1]` of the score history of one batch
element (one cumulative score per input beam slot). -/
def prevScores {α : Type} [LinearOrderedRing α] (step : ℕ)
    (scores : List (List (WithBot α))) : List (WithBot α) :=
  scores.map (fun h => h.getD (step - 1) 0)

/-- `lprobs.add_(scores[:, :, step - 1].unsqueeze(-1))`: make the
log-probabilities cumulative for each hypothesis. -/
def addHistory {α : Type} [LinearOrderedRing α] (step : ℕ)
    (lprobs scores : List (List (WithBot α))) : List (List (WithBot α)) :=
  List.zipWith (fun row s => row.map (· + s)) lprobs (prevScores step scores)

/-- `BeamSearch.step` on one batch element.  At step 0 only beam slot 0 is
used (`lprobs[:, ::beam_size, :]`); otherwise history scores are added.  The
flattened `(beam, vocab)` dimension is top-k'd with
`k = min(2 * beam_size, flattened_size - 1)`; beam origins are recovered by
integer division by `vocab_size` and token ids by remainder (`fmod_`). -/
def BeamSearch.step {α : Type} [LinearOrderedRing α] [DecidableEq α] (step : ℕ)
    (lprobs scores : List (List (WithBot α))) :
    List (WithBot α) × List ℕ × List ℕ :=
  let K := lprobs.length
  let V := vocabOf lprobs
  let lp := if step = 0 then lprobs.take 1 else addHistory step lprobs scores
  let flat := lp.flatten
  let k := min (2 * K) (flat.length - 1)
  let top := topk k flat
  (top.map (·.1), top.map (fun c => c.2 % V), top.map (fun c => c.2 / V))

/-- Batched `BeamSearch.step` (the batch dimension is componentwise). -/
def BeamSearch.stepBatch {α : Type} [LinearOrderedRing α] [DecidableEq α]
    (step : ℕ) (lprobs scores : List (List (List (WithBot α)))) :
    List (List (WithBot α) × List ℕ × List ℕ) :=
  List.zipWith (BeamSearch.step step) lprobs scores

/-- `Search.__init__` sets `self.src_lengths = torch.tensor(-1)`: the
source-length sentinel in place before `set_src_lengths` is called. -/
def defaultSrcLengths {α : Type} [LinearOrderedRing α] : α := -1

/-- The end-of-sequence masking performed by `LengthConstrainedBeamSearch.step`
before delegating to `BeamSearch`, on one batch element:
`lprobs[step < min_lens, :, eos] = -inf`,
`lprobs[step == max_lens, :, eos] = 0`,
`lprobs[step > max_lens, :, eos] = -inf`, applied in this order. -/
def maskEos {α : Type} [LinearOrderedRing α] (eos : ℕ) (minLen maxLen : α)
    (step : ℕ) (lprobs : List (List (WithBot α))) : List (List (WithBot α)) :=
  let l1 := if (step : α) < minLen then
    lprobs.map (fun row => row.set eos ⊥) else lprobs
  let l2 := if (step : α) = maxLen then
    l1.map (fun row => row.set eos (0 : WithBot α)) else l1
  if (step : α) > maxLen then l2.map (fun row => row.set eos ⊥) else l2

/-- `LengthConstrainedBeamSearch.step` on one batch element:
`min_lens = min_len_a * src_lengths + min_len_b`,
`max_lens = max_len_a * src_lengths + max_len_b`, mask the end-of-sequence
column, then delegate to `BeamSearch.step`.  No validation of `srcLengths`
is performed (mirroring the source). -/
def LengthConstrainedBeamSearch.step {α : Type} [LinearOrderedRing α]
    [DecidableEq α] (eos : ℕ) (minLenA minLenB maxLenA maxLenB srcLengths : α)
    (step : ℕ) (lprobs scores : List (List (WithBot α))) :
    List (WithBot α) × List ℕ × List ℕ :=
  BeamSearch.step step
    (maskEos eos (minLenA * srcLengths + minLenB)
      (maxLenA * srcLengths + maxLenB) step lprobs) scores

/-- Python strided slice `l[g::G]`. -/
def strideSlice {α : Type} (g G : ℕ) (l : List α) : List α :=
  (List.range ((l.length - g + G - 1) / G)).filterMap (fun j => l[g + j * G]?)

/-- `diversity_buf.scatter_add_(1, indices, ones)`: bump the per-vocabulary
selection count at each chosen token id. -/
def scatterOnes {α : Type} [LinearOrderedRing α] (buf : List α)
    (idxs : List ℕ) : List α :=
  idxs.foldl (fun b t => b.set t (b.getD t 0 + 1)) buf

/-- `torch.add(lprobs_g, self.diversity_strength, diversity_buf)` where the
stored field is the negated construction argument
(`self.diversity_strength = -diversity_strength`). -/
def DiverseBeamSearch.penalize {α : Type} [LinearOrderedRing α]
    (strength : α) (buf : List α) (rows : List (List (WithBot α))) :
    List (List (WithBot α)) :=
  rows.map (fun row =>
    List.zipWith (fun x c => x + ((-strength * c : α) : WithBot α)) row buf)

/-- Diversity accumulator of `DiverseBeamSearch.step` before processing group
`g` (zeroed each step, then bumped by every earlier group's chosen tokens). -/
def DiverseBeamSearch.bufAfter {α : Type} [LinearOrderedRing α] [DecidableEq α]
    (strength : α) (G step : ℕ) (lprobs scores : List (List (WithBot α))) :
    ℕ → List α
  | 0 => List.replicate (vocabOf lprobs) 0
  | g + 1 =>
    let buf := DiverseBeamSearch.bufAfter strength G step lprobs scores g
    let rows := strideSlice g G lprobs
    let rows' := if 0 < g then DiverseBeamSearch.penalize strength buf rows
      else rows
    let out := BeamSearch.step step rows' (strideSlice g G scores)
    scatterOnes buf out.2.1

/-- One loop iteration of `DiverseBeamSearch.step`: run `BeamSearch` on group
`g`'s (possibly penalized) rows and remap beam origins to global ids via
`beams_buf.mul_(self.num_groups).add_(g)`. -/
def DiverseBeamSearch.groupOut {α : Type} [LinearOrderedRing α] [DecidableEq α]
    (strength : α) (G step : ℕ) (lprobs scores : List (List (WithBot α)))
    (g : ℕ) : List (WithBot α) × List ℕ × List ℕ :=
  let buf := DiverseBeamSearch.bufAfter strength G step lprobs scores g
  let rows := strideSlice g G lprobs
  let rows' := if 0 < g then DiverseBeamSearch.penalize strength buf rows
    else rows
  let out := BeamSearch.step step rows' (strideSlice g G scores)
  (out.1, out.2.1, out.2.2.map (fun x => x * G + g))

/-- The plain `BeamSearch.step` call made for group `g` inside
`DiverseBeamSearch.step`, before the beam-origin remap
(`beams_buf.mul_(self.num_groups).add_(g)`). -/
def DiverseBeamSearch.localOut {α : Type} [LinearOrderedRing α] [DecidableEq α]
    (strength : α) (G step : ℕ) (lprobs scores : List (List (WithBot α)))
    (g : ℕ) : List (WithBot α) × List ℕ × List ℕ :=
  let buf := DiverseBeamSearch.bufAfter strength G step lprobs scores g
  let rows := strideSlice g G lprobs
  let rows' := if 0 < g then DiverseBeamSearch.penalize strength buf rows
    else rows
  BeamSearch.step step rows' (strideSlice g G scores)

/-- `torch.stack(results, dim=2).view(bsz, -1)` on one batch element: output
position `w * G + g` holds group `g`'s entry `w`. -/
def interleave {α : Type} (W : ℕ) (ls : List (List α)) : List α :=
  ((List.range W).map (fun w => ls.filterMap (fun l => l[w]?))).flatten

/-- `DiverseBeamSearch.step` on one batch element.  Fails (`ValueError`) when
the beam width is not divisible by the number of groups; otherwise processes
groups sequentially, feeding each group's chosen tokens into the shared
diversity accumulator, and interleaves the per-group triples. -/
def DiverseBeamSearch.step {α : Type} [LinearOrderedRing α] [DecidableEq α]
    (strength : α) (G step : ℕ) (lprobs scores : List (List (WithBot α))) :
    Option (List (WithBot α) × List ℕ × List ℕ) :=
  if G = 0 ∨ lprobs.length % G ≠ 0 then none
  else
    let outs := (List.range G).map
      (DiverseBeamSearch.groupOut strength G step lprobs scores)
    let W := (outs.headD ([], [], [])).1.length
    some (interleave W (outs.map (·.1)), interleave W (outs.map (·.2.1)),
      interleave W (outs.map (·.2.2)))

/-- Inclusive running sums (`cumsum` along the vocabulary dimension). -/
def cumsum {α : Type} [LinearOrderedRing α] : List α → List α
  | [] => []
  | x :: xs => x :: (cumsum xs).map (x + ·)

/-- `probs.sort(descending=True)` on one row: sorted values with their
original indices. -/
def sortDesc {α : Type} [LinearOrderedRing α] [DecidableEq α] (l : List α) :
    List (α × ℕ) := topk l.length l

/-- Core of `Sampling._sample_topp`, taking the probabilities
`probs = lprobs.exp_()` directly.  Rows are the flattened
`(bsz × input_beam)` rows.  Sort each row descending, mark the tokens whose
cumulative mass is strictly below `p` (`lt`), include one more token
(`scatter_` at the clamped count), truncate all rows to the largest included
width, and zero the probabilities outside the mask. -/
def sampleToppCore {α : Type} [LinearOrderedRing α] [DecidableEq α] (p : α)
    (probs : List (List α)) : List (List α) × List (List ℕ) :=
  let sorted := probs.map sortDesc
  let sorted_probs := sorted.map (List.map (·.1))
  let sorted_indices := sorted.map (List.map (·.2))
  let cums := sorted_probs.map cumsum
  let mask := cums.map (List.map (fun c => decide (c < p)))
  let lastIncluded := mask.map (fun m => min (m.countP (fun b => b)) (m.length - 1))
  let maxDim := lastIncluded.foldr max 0
  let scattered := (mask.zip lastIncluded).map (fun x => x.1.set x.2 true)
  let truncated_mask := scattered.map (List.take (maxDim + 1))
  let truncated_probs := sorted_probs.map (List.take (maxDim + 1))
  let truncated_indices := sorted_indices.map (List.take (maxDim + 1))
  let trimmed := (truncated_probs.zip truncated_mask).map
    (fun x => List.zipWith (fun q b => if b then q else (0 : α)) x.1 x.2)
  (trimmed, truncated_indices)

/-- The `mask` stage of `_sample_topp` (cumulative masses strictly below
`p`), in its literal batched form. -/
def toppMask {α : Type} [LinearOrderedRing α] [DecidableEq α] (p : α)
    (probs : List (List α)) : List (List Bool) :=
  (((probs.map sortDesc).map
    (List.map (·.1) : List (α × ℕ) → List α)).map cumsum).map
    (List.map (fun x => decide (x < p)))

/-- The `last_included` stage of `_sample_topp` (clamped count of marked
tokens per row). -/
def toppLastIncluded {α : Type} [LinearOrderedRing α] [DecidableEq α] (p : α)
    (probs : List (List α)) : List ℕ :=
  (toppMask p probs).map (fun m => min (m.countP (fun b => b)) (m.length - 1))

/-- The `max_dim` stage of `_sample_topp` (global truncation width minus
one). -/
def toppMaxDim {α : Type} [LinearOrderedRing α] [DecidableEq α] (p : α)
    (probs : List (List α)) : ℕ :=
  (toppLastIncluded p probs).foldr max 0

/-- `Sampling._sample_topp` = exponentiate (`lprobs.exp_()`), then the core. -/
def sample_topp {α : Type} [LinearOrderedRing α] [DecidableEq α]
    (expF : α → α) (p : α) (lprobs : List (List α)) :
    List (List α) × List (List ℕ) :=
  sampleToppCore p (lprobs.map (List.map expF))

/-- The column `scores[:, :, step - 1]` for the finite-valued `Sampling`
pipeline. -/
def prevScoresQ {α : Type} [LinearOrderedRing α] (step : ℕ)
    (scores : List (List α)) : List α :=
  scores.map (fun h => h.getD (step - 1) 0)

/-- `Sampling.step` on one batch element (rescoring hook disabled).
`logprob` is initialized to `None` (line 230) and assigned only inside the
top-k branch (line 254); the unconditional `lprobs = logprob.clone()`
(line 259) therefore raises `AttributeError` in the top-p and
full-vocabulary branches, modelled as `none`.  In the surviving top-k branch:
truncate each row to its `sampling_topk` best tokens, exponentiate, draw one
category per output slot (`draw`), gather the drawn probabilities, take logs,
remap drawn local ids to vocabulary ids through `top_indices`, and (for
`step > 0`) add each beam's previous cumulative score. -/
def Sampling.step {α : Type} [LinearOrderedRing α] [DecidableEq α]
    (samplingTopk : ℤ) (samplingTopp : α) (expF logF : α → α)
    (draw : ℕ → ℕ) (step : ℕ) (lprobs scores : List (List α)) :
    Option (List α × List ℕ × List ℕ) :=
  let K := lprobs.length
  let V := (lprobs.headD []).length
  let lp0 := if step = 0 then lprobs.take 1 else lprobs
  if 0 < samplingTopp then none
  else if 0 < samplingTopk then
    if samplingTopk.toNat ≤ V then
      let tops := lp0.map (fun row => topk samplingTopk.toNat row)
      let top_indices := tops.map (List.map (·.2))
      let probs := tops.map (fun t => t.map (fun c => expF c.1))
      let drawn := (List.range K).map draw
      let probsE := if step = 0 then List.replicate K (probs.headD []) else probs
      let topIdxE := if step = 0 then List.replicate K (top_indices.headD [])
        else top_indices
      let scoresBuf := List.zipWith (fun row i => logF (row.getD i 0)) probsE drawn
      let indicesBuf := List.zipWith (fun ti i => ti.getD i 0) topIdxE drawn
      let beamsBuf := if step = 0 then List.replicate K 0 else List.range K
      let scoresFinal := if step = 0 then scoresBuf
        else List.zipWith (· + ·) scoresBuf (prevScoresQ step scores)
      some (scoresFinal, indicesBuf, beamsBuf)
    else none
  else none

/-- `DiverseSiblingsSearch.step` on one batch element.  Step 0 delegates to
`BeamSearch.step`.  Otherwise, with
`k = min(2 * beam_size, beam_size * vocab_size - 1)`: add history scores,
top-k each beam slot's own row (torch raises when `k > vocab_size`), apply
`fmod_(vocab_size)` to the token ids, subtract the sibling penalty vector
`range(1, k + 1) * diversity_rate`, pool the `beam_size * k` penalized
candidates, take the global top-k, and recover beam origins by `div k` and
token ids through the pooled candidate table. -/
def DiverseSiblingsSearch.step {α : Type} [LinearOrderedRing α] [DecidableEq α]
    (rate : α) (step : ℕ) (lprobs scores : List (List (WithBot α))) :
    Option (List (WithBot α) × List ℕ × List ℕ) :=
  let K := lprobs.length
  let V := vocabOf lprobs
  let k := min (2 * K) (K * V - 1)
  let sibling_score : List α := (List.range k).map (fun i => ((i + 1 : ℕ) : α) * rate)
  if step = 0 then some (BeamSearch.step step lprobs scores)
  else if k ≤ V then
    let lp := addHistory step lprobs scores
    let slotTops := lp.map (fun row => topk k row)
    let i_list := slotTops.map (List.map (fun c => c.2 % V))
    let s_list := slotTops.map (fun st =>
      List.zipWith (fun x q => x + ((-q : α) : WithBot α)) (st.map (·.1))
        sibling_score)
    let indices := i_list.flatten
    let final := topk k s_list.flatten
    let final_beams := final.map (fun c => c.2 / k)
    let final_indices := final.map (fun c => indices.getD c.2 0)
    some (final.map (·.1), final_indices, final_beams)
  else none

/-- Spec-side description of `DiverseSiblingsSearch.step` for `step > 0`
(claim C9): each slot `i` contributes its top-`k` candidates with the penalty
`(j+1) * rate` subtracted from the `j`-th ranked sibling, the `K * k`
penalized scores are pooled, the global top-`k` is taken, the beam origin is
the pooled index divided by `k` and the token id comes from the per-slot
candidate table. -/
def dssSpec {α : Type} [LinearOrderedRing α] [DecidableEq α]
    (rate : α) (step : ℕ) (lprobs scores : List (List (WithBot α))) :
    List (WithBot α) × List ℕ × List ℕ :=
  let K := lprobs.length
  let V := vocabOf lprobs
  let k := min (2 * K) (K * V - 1)
  let lp := addHistory step lprobs scores
  let pool := ((List.range K).map (fun i => (List.range k).map (fun j =>
    ((topk k (lp.getD i [])).getD j (0, 0)).1 +
      ((-(((j + 1 : ℕ) : α) * rate) : α) : WithBot α)))).flatten
  let table := ((List.range K).map (fun i =>
    (topk k (lp.getD i [])).map (fun c => c.2 % V))).flatten
  let final := topk k pool
  (final.map (·.1), final.map (fun c => table.getD c.2 0),
    final.map (fun c => c.2 / k))

/-- Concrete diverse-siblings input with `K = 2`, `V = 5` (so `k = 4 ≤ V`). -/
def c9lprobs : List (List (WithBot ℤ)) :=
  [[(1 : ℤ), 3, 2, 0, 5], [(4 : ℤ), 0, 1, 2, 3]]

/-- Cumulative scores matching `c9lprobs` at step 1. -/
def c9scores : List (List (WithBot ℤ)) := [[(10 : ℤ)], [(0 : ℤ)]]

/-- The per-slot top-`k` candidates of every row of `lp`, tagged with their
global flattened indices `r * V + i` (slot `r`, in-row index `i`).  This is
the sub-pool from which `DiverseSiblingsSearch` effectively selects when the
diversity rate is zero. -/
def slotCands {β : Type} [LinearOrder β] [DecidableEq β] (V k : ℕ)
    (lp : List (List β)) : List (β × ℕ) :=
  ((List.range lp.length).map (fun r =>
    (topk k (lp.getD r [])).map (fun c => (c.1, r * V + c.2)))).flatten

/-- The pooled per-slot top-`k` values (`s_list` of `DiverseSiblingsSearch`
with zero diversity rate): slot `r`'s rank-`j` value sits at pooled position
`r * k + j`. -/
def pooledVals {β : Type} [LinearOrder β] [DecidableEq β] (k : ℕ)
    (lp : List (List β)) : List β :=
  ((lp.map (fun row => topk k row)).map (fun st => st.map (·.1))).flatten

/-- Translation from a pooled candidate (value, pooled position `r * k + j`)
to the corresponding globally-indexed candidate
(value, `r * V +` in-row index of slot `r`'s rank-`j` top candidate). -/
def poolMap {β : Type} [LinearOrder β] [DecidableEq β] (V k : ℕ)
    (lp : List (List β)) : β × ℕ → β × ℕ :=
  fun c => (c.1, c.2 / k * V +
    ((topk k (lp.getD (c.2 / k) [])).getD (c.2 % k) (c.1, 0)).2)

/-! ### Properties of the candidate order -/

theorem cLT_irrefl {α : Type} [LinearOrder α] (a : α × ℕ) : ¬ cLT a a := by
  simp [cLT]

theorem cLT_asymm {α : Type} [LinearOrder α] {a b : α × ℕ}
    (h : cLT a b) : ¬ cLT b a := by
  rcases h with h | ⟨he, hi⟩ <;> rintro (h' | ⟨he', hi'⟩)
  · exact absurd h' (lt_asymm h)
  · rw [he'] at h; exact lt_irrefl _ h
  · rw [he] at h'; exact lt_irrefl _ h'
  · omega

theorem cLT_trans {α : Type} [LinearOrder α] {a b c : α × ℕ}
    (h₁ : cLT a b) (h₂ : cLT b c) : cLT a c := by
  rcases h₁ with h₁ | ⟨he₁, hi₁⟩ <;> rcases h₂ with h₂ | ⟨he₂, hi₂⟩
  · exact Or.inl (lt_trans h₂ h₁)
  · exact Or.inl (he₂ ▸ h₁)
  · exact Or.inl (he₁ ▸ h₂)
  · exact Or.inr ⟨he₁.trans he₂, lt_trans hi₁ hi₂⟩

theorem cLT_connex {α : Type} [LinearOrder α] {a b : α × ℕ}
    (h : a ≠ b) : cLT a b ∨ cLT b a := by
  rcases lt_trichotomy a.1 b.1 with hv | hv | hv
  · exact Or.inr (Or.inl hv)
  · rcases Nat.lt_trichotomy a.2 b.2 with hi | hi | hi
    · exact Or.inl (Or.inr ⟨hv, hi⟩)
    · exact absurd (Prod.ext hv hi) h
    · exact Or.inr (Or.inr ⟨hv.symm, hi⟩)
  · exact Or.inl (Or.inl hv)

theorem not_cLT_resolve {α : Type} [LinearOrder α] {x y : α × ℕ}
    (h : ¬ cLT x y) : y = x ∨ cLT y x := by
  by_cases he : y = x
  · exact Or.inl he
  · rcases cLT_connex (fun hxy => he hxy.symm) with h' | h'
    · exact absurd h' h
    · exact Or.inr h'

instance {α : Type} [LinearOrder α] : IsIrrefl (α × ℕ) cLT := ⟨cLT_irrefl⟩

instance {α : Type} [LinearOrder α] : IsAntisymm (α × ℕ) cLT :=
  ⟨fun _ _ h h' => absurd h' (cLT_asymm h)⟩

instance {α : Type} [LinearOrder α] : IsTrans (α × ℕ) cLT := ⟨fun _ _ _ => cLT_trans⟩

/-! ### Properties of `pickBest` and `topSelect` -/

theorem pickBest_cons {α : Type} [LinearOrder α] (c d : α × ℕ) (ds : List (α × ℕ)) :
    pickBest c (d :: ds) = pickBest (if cLT d c then d else c) ds := rfl

theorem pickBest_mem {α : Type} [LinearOrder α] (c : α × ℕ) (l : List (α × ℕ)) :
    pickBest c l ∈ c :: l := by
  induction l generalizing c with
  | nil => simp [pickBest]
  | cons d ds ih =>
    rw [pickBest_cons]
    by_cases hdc : cLT d c
    · rw [if_pos hdc]
      exact List.mem_cons_of_mem c (ih d)
    · rw [if_neg hdc]
      rcases List.mem_cons.mp (ih c) with h | h
      · rw [h]; exact List.mem_cons_self _ _
      · exact List.mem_cons_of_mem c (List.mem_cons_of_mem d h)

theorem pickBest_not_lt {α : Type} [LinearOrder α] (c : α × ℕ) (l : List (α × ℕ)) :
    ∀ x ∈ c :: l, ¬ cLT x (pickBest c l) := by
  induction l generalizing c with
  | nil =>
    intro x hx
    rw [List.mem_singleton] at hx
    subst hx
    exact cLT_irrefl _
  | cons d ds ih =>
    intro x hx hlt
    rw [pickBest_cons] at hlt
    set e := if cLT d c then d else c with he
    have key : ∀ o, cLT e o → ¬ cLT o (pickBest e ds) := by
      intro o heo hco
      have hpe : ¬ cLT e (pickBest e ds) := ih e e (List.mem_cons_self e ds)
      rcases not_cLT_resolve hpe with hr | hr
      · rw [hr] at hco; exact cLT_asymm heo hco
      · exact cLT_asymm heo (cLT_trans hco hr)
    rcases List.mem_cons.mp hx with rfl | hx'
    · by_cases hdc : cLT d x
      · exact key x (by rw [he, if_pos hdc]; exact hdc) hlt
      · exact ih e x (by rw [he, if_neg hdc]; exact List.mem_cons_self x ds) hlt
    · rcases List.mem_cons.mp hx' with rfl | hx''
      · by_cases hdc : cLT x c
        · exact ih e x (by rw [he, if_pos hdc]; exact List.mem_cons_self x ds) hlt
        · rcases not_cLT_resolve hdc with hr | hr
          · exact ih e x
              (by rw [he, if_neg hdc, hr]; exact List.mem_cons_self x ds) hlt
          · exact key x (by rw [he, if_neg hdc]; exact hr) hlt
      · exact ih e x (List.mem_cons_of_mem e hx'') hlt

theorem topSelect_cons {α : Type} [LinearOrder α] [DecidableEq α]
    (k : ℕ) (c : α × ℕ) (cs : List (α × ℕ)) :
    topSelect (k + 1) (c :: cs) =
      pickBest c cs :: topSelect k ((c :: cs).erase (pickBest c cs)) := rfl

theorem topSelect_length {α : Type} [LinearOrder α] [DecidableEq α]
    (k : ℕ) (l : List (α × ℕ)) :
    (topSelect k l).length = min k l.length := by
  induction k generalizing l with
  | zero => simp [topSelect]
  | succ k ih =>
    cases l with
    | nil => simp [topSelect]
    | cons c cs =>
      rw [topSelect_cons]
      have hlen := List.length_erase_of_mem (pickBest_mem c cs)
      simp only [List.length_cons, ih]
      rw [hlen]
      simp only [List.length_cons]
      omega

theorem topSelect_subset {α : Type} [LinearOrder α] [DecidableEq α]
    {k : ℕ} {l : List (α × ℕ)} : ∀ x ∈ topSelect k l, x ∈ l := by
  induction k generalizing l with
  | zero => simp [topSelect]
  | succ k ih =>
    cases l with
    | nil => simp [topSelect]
    | cons c cs =>
      intro x hx
      rw [topSelect_cons, List.mem_cons] at hx
      rcases hx with rfl | hx
      · exact pickBest_mem c cs
      · exact List.erase_subset _ _ (ih x hx)

theorem topSelect_sorted {α : Type} [LinearOrder α] [DecidableEq α]
    {k : ℕ} {l : List (α × ℕ)} (hnd : l.Nodup) :
    (topSelect k l).Pairwise cLT := by
  induction k generalizing l with
  | zero => simp [topSelect]
  | succ k ih =>
    cases l with
    | nil => simp [topSelect]
    | cons c cs =>
      rw [topSelect_cons]
      refine List.Pairwise.cons ?_ (ih (hnd.erase (pickBest c cs)))
      intro y hy
      have hyE : y ∈ (c :: cs).erase (pickBest c cs) := topSelect_subset y hy
      have hyM : y ∈ c :: cs := List.erase_subset _ _ hyE
      have hyne : y ≠ pickBest c cs := ((hnd.mem_erase_iff).mp hyE).1
      rcases not_cLT_resolve (pickBest_not_lt c cs y hyM) with hr | hr
      · exact absurd hr.symm hyne
      · exact hr

theorem topSelect_nodup {α : Type} [LinearOrder α] [DecidableEq α]
    {k : ℕ} {l : List (α × ℕ)} (hnd : l.Nodup) : (topSelect k l).Nodup :=
  (topSelect_sorted hnd).nodup

theorem perm_cons_erase_pair {α : Type} [LinearOrder α] [DecidableEq α]
    {a : α × ℕ} {l : List (α × ℕ)} (h : a ∈ l) : l.Perm (a :: l.erase a) := by
  induction l with
  | nil => cases h
  | cons b bs ih =>
    by_cases hab : a = b
    · subst hab
      rw [List.erase_cons_head]
    · have hm : a ∈ bs := by
        rcases List.mem_cons.mp h with h' | h'
        · exact absurd h' hab
        · exact h'
      have hba : ¬ (b == a) = true := by
        simp only [beq_iff_eq]
        exact fun hba => hab hba.symm
      rw [List.erase_cons_tail hba]
      exact ((ih hm).cons b).trans (List.Perm.swap a b (bs.erase a))

theorem mem_topSelect_iff {α : Type} [LinearOrder α] [DecidableEq α]
    {k : ℕ} {l : List (α × ℕ)} (hnd : l.Nodup) (x : α × ℕ) :
    x ∈ topSelect k l ↔
      x ∈ l ∧ l.countP (fun y => decide (cLT y x)) < k := by
  induction k generalizing l with
  | zero => simp [topSelect]
  | succ k ih =>
    cases l with
    | nil => simp [topSelect]
    | cons c cs =>
      rw [topSelect_cons]
      have hbL : pickBest c cs ∈ c :: cs := pickBest_mem c cs
      have hperm : (c :: cs).Perm
          (pickBest c cs :: (c :: cs).erase (pickBest c cs)) :=
        perm_cons_erase_pair hbL
      by_cases hxb : x = pickBest c cs
      · constructor
        · intro _
          refine ⟨by rw [hxb]; exact hbL, ?_⟩
          have h0 : (c :: cs).countP (fun y => decide (cLT y x)) = 0 :=
            List.countP_eq_zero.mpr (fun y hy => by
              rw [hxb]
              simpa using pickBest_not_lt c cs y hy)
          omega
        · intro _
          rw [hxb]
          exact List.mem_cons_self _ _
      · rw [List.mem_cons]
        simp only [hxb, false_or]
        rw [ih (hnd.erase (pickBest c cs))]
        have hcntL : x ∈ c :: cs →
            (c :: cs).countP (fun y => decide (cLT y x)) =
              ((c :: cs).erase (pickBest c cs)).countP
                (fun y => decide (cLT y x)) + 1 := by
          intro hx
          have hbx : cLT (pickBest c cs) x := by
            rcases not_cLT_resolve (pickBest_not_lt c cs x hx) with hr | hr
            · exact absurd hr.symm hxb
            · exact hr
          rw [hperm.countP_eq, List.countP_cons]
          simp [hbx]
        constructor
        · rintro ⟨hxe, hc⟩
          have hxL : x ∈ c :: cs := List.erase_subset _ _ hxe
          exact ⟨hxL, by rw [hcntL hxL]; omega⟩
        · rintro ⟨hxL, hc⟩
          refine ⟨(List.mem_erase_of_ne hxb).mpr hxL, ?_⟩
          have := hcntL hxL
          omega

theorem topSelect_count_lt_iff {α : Type} [LinearOrder α] [DecidableEq α]
    {S F : List (α × ℕ)} (hS : S.Nodup) (hF : F.Nodup) (k : ℕ)
    (hsub : ∀ x ∈ S, x ∈ F)
    (hcover : ∀ x ∈ F, F.countP (fun y => decide (cLT y x)) < k → x ∈ S)
    {x : α × ℕ} (hxS : x ∈ S) :
    S.countP (fun y => decide (cLT y x)) < k ↔
      F.countP (fun y => decide (cLT y x)) < k := by
  constructor
  · intro hc
    by_contra hge
    push_neg at hge
    have hlenB : k ≤ (F.filter (fun y => decide (cLT y x))).length := by
      rw [← List.countP_eq_length_filter]
      exact hge
    set B := F.filter (fun y => decide (cLT y x)) with hB
    have hBnd : B.Nodup := hF.filter _
    have hUlen : (topSelect k B).length = k := by
      rw [topSelect_length]
      omega
    have hUS : ∀ u ∈ topSelect k B, u ∈ S ∧ cLT u x := by
      intro u hu
      have huB : u ∈ B := topSelect_subset u hu
      have huF : u ∈ F := by
        have h0 : u ∈ F.filter (fun y => decide (cLT y x)) := by
          rw [← hB]; exact huB
        exact (List.mem_filter.mp h0).1
      have h1 : u ∈ F.filter (fun y => decide (cLT y x)) := by
        rw [← hB]; exact huB
      have hux : cLT u x := of_decide_eq_true (List.mem_filter.mp h1).2
      have hcntB : B.countP (fun y => decide (cLT y u)) < k :=
        ((mem_topSelect_iff hBnd u).mp hu).2
      have hcntF : F.countP (fun y => decide (cLT y u)) =
          B.countP (fun y => decide (cLT y u)) := by
        rw [hB, List.countP_filter]
        refine List.countP_congr (fun a _ => ?_)
        show decide (cLT a u) = true ↔
          (decide (cLT a u) && decide (cLT a x)) = true
        rw [Bool.and_eq_true, decide_eq_true_eq, decide_eq_true_eq]
        exact ⟨fun h => ⟨h, cLT_trans h hux⟩, fun h => h.1⟩
      exact ⟨hcover u huF (by rw [hcntF]; exact hcntB), hux⟩
    have hsubperm :
        (topSelect k B).Subperm (S.filter (fun y => decide (cLT y x))) := by
      refine (topSelect_nodup hBnd).subperm ?_
      intro u hu
      rcases hUS u hu with ⟨huS, hux⟩
      exact List.mem_filter.mpr ⟨huS, decide_eq_true hux⟩
    have := hsubperm.length_le
    rw [hUlen, ← List.countP_eq_length_filter] at this
    omega
  · intro hc
    have hle := List.Subperm.countP_le (fun y => decide (cLT y x)) (hS.subperm hsub)
    omega

theorem topSelect_eq_of_cover {α : Type} [LinearOrder α] [DecidableEq α]
    {S F : List (α × ℕ)} (hS : S.Nodup) (hF : F.Nodup) (k : ℕ)
    (hsub : ∀ x ∈ S, x ∈ F)
    (hcover : ∀ x ∈ F, F.countP (fun y => decide (cLT y x)) < k → x ∈ S) :
    topSelect k S = topSelect k F := by
  have hmem : ∀ x, x ∈ topSelect k S ↔ x ∈ topSelect k F := by
    intro x
    rw [mem_topSelect_iff hS x, mem_topSelect_iff hF x]
    constructor
    · rintro ⟨hxS, hc⟩
      exact ⟨hsub x hxS,
        (topSelect_count_lt_iff hS hF k hsub hcover hxS).mp hc⟩
    · rintro ⟨hxF, hc⟩
      have hxS : x ∈ S := hcover x hxF hc
      exact ⟨hxS, (topSelect_count_lt_iff hS hF k hsub hcover hxS).mpr hc⟩
  exact List.eq_of_perm_of_sorted
    ((List.perm_ext_iff_of_nodup (topSelect_nodup hS) (topSelect_nodup hF)).mpr
      hmem)
    (topSelect_sorted hS) (topSelect_sorted hF)

theorem topSelect_map {α β : Type} [LinearOrder α] [DecidableEq α]
    [LinearOrder β] [DecidableEq β]
    (g : α × ℕ → β × ℕ) (k : ℕ) (l : List (α × ℕ)) (hnd : l.Nodup)
    (hord : ∀ a ∈ l, ∀ b ∈ l, (cLT (g a) (g b) ↔ cLT a b)) :
    topSelect k (l.map g) = (topSelect k l).map g := by
  have hinj : ∀ x ∈ l, ∀ y ∈ l, g x = g y → x = y := by
    intro x hx y hy hgxy
    by_contra hne
    rcases cLT_connex hne with h | h
    · have h' := (hord x hx y hy).mpr h
      rw [hgxy] at h'
      exact cLT_irrefl _ h'
    · have h' := (hord y hy x hx).mpr h
      rw [hgxy] at h'
      exact cLT_irrefl _ h'
  have hndm : (l.map g).Nodup := hnd.map_on hinj
  have hsub : ∀ x ∈ topSelect k l, x ∈ l := topSelect_subset
  have hcnt : ∀ x ∈ l, (l.map g).countP (fun y => decide (cLT y (g x))) =
      l.countP (fun y => decide (cLT y x)) := by
    intro x hx
    rw [List.countP_map]
    refine List.countP_congr (fun a ha => ?_)
    show decide (cLT (g a) (g x)) = true ↔ decide (cLT a x) = true
    rw [decide_eq_true_eq, decide_eq_true_eq]
    exact hord a ha x hx
  have hsorted : ((topSelect k l).map g).Pairwise cLT :=
    List.pairwise_map.mpr ((topSelect_sorted hnd).imp_of_mem
      (fun ha hb hr => (hord _ (hsub _ ha) _ (hsub _ hb)).mpr hr))
  have hndMap : ((topSelect k l).map g).Nodup :=
    (topSelect_nodup hnd).map_on
      (fun x hx y hy => hinj x (hsub x hx) y (hsub y hy))
  have hmem : ∀ z, z ∈ topSelect k (l.map g) ↔ z ∈ (topSelect k l).map g := by
    intro z
    rw [mem_topSelect_iff hndm z]
    constructor
    · rintro ⟨hzm, hc⟩
      rcases List.mem_map.mp hzm with ⟨x, hx, rfl⟩
      rw [hcnt x hx] at hc
      exact List.mem_map_of_mem g ((mem_topSelect_iff hnd x).mpr ⟨hx, hc⟩)
    · intro hz
      rcases List.mem_map.mp hz with ⟨x, hx, rfl⟩
      have hxl := hsub x hx
      refine ⟨List.mem_map_of_mem g hxl, ?_⟩
      rw [hcnt x hxl]
      exact ((mem_topSelect_iff hnd x).mp hx).2
  exact List.eq_of_perm_of_sorted
    ((List.perm_ext_iff_of_nodup (topSelect_nodup hndm) hndMap).mpr hmem)
    (topSelect_sorted hndm) hsorted

/-! ### Indexed candidate lists -/

theorem withIdxFrom_length {α : Type} (n : ℕ) (xs : List α) :
    (withIdxFrom n xs).length = xs.length := by
  induction xs generalizing n with
  | nil => rfl
  | cons x xs ih => simp [withIdxFrom, ih]

theorem withIdxFrom_getElem {α : Type} (n : ℕ) (xs : List α) (j : ℕ)
    (hj : j < xs.length) (hj' : j < (withIdxFrom n xs).length) :
    (withIdxFrom n xs)[j] = (xs[j], n + j) := by
  induction xs generalizing n j with
  | nil => simp at hj
  | cons x xs ih =>
    cases j with
    | zero => simp [withIdxFrom]
    | succ j =>
      have hj2 : j < xs.length := by simpa using hj
      have hj2' : j < (withIdxFrom (n + 1) xs).length := by
        rw [withIdxFrom_length]; exact hj2
      show (withIdxFrom (n + 1) xs)[j] = _
      rw [ih (n + 1) j hj2 hj2']
      simp only [List.getElem_cons_succ]
      congr 1
      omega

theorem withIdxFrom_mem {α : Type} {n : ℕ} {xs : List α} {c : α × ℕ} :
    c ∈ withIdxFrom n xs ↔ ∃ j, ∃ h : j < xs.length, c = (xs[j], n + j) := by
  rw [List.mem_iff_getElem]
  constructor
  · rintro ⟨m, hm, hc⟩
    have hm2 : m < xs.length := by rw [withIdxFrom_length] at hm; exact hm
    exact ⟨m, hm2, by rw [← hc, withIdxFrom_getElem n xs m hm2 hm]⟩
  · rintro ⟨j, hj, rfl⟩
    have hj' : j < (withIdxFrom n xs).length := by
      rw [withIdxFrom_length]; exact hj
    exact ⟨j, hj', withIdxFrom_getElem n xs j hj hj'⟩

theorem withIdxFrom_snd_bounds {α : Type} {n : ℕ} {xs : List α} {c : α × ℕ}
    (h : c ∈ withIdxFrom n xs) : n ≤ c.2 ∧ c.2 < n + xs.length := by
  rcases withIdxFrom_mem.mp h with ⟨j, hj, rfl⟩
  constructor <;> simp <;> omega

theorem withIdxFrom_nodup {α : Type} (n : ℕ) (xs : List α) :
    (withIdxFrom n xs).Nodup := by
  rw [List.Nodup, List.pairwise_iff_getElem]
  intro i j hi hj hij
  have hi2 : i < xs.length := by rw [withIdxFrom_length] at hi; exact hi
  have hj2 : j < xs.length := by rw [withIdxFrom_length] at hj; exact hj
  rw [withIdxFrom_getElem n xs i hi2 hi, withIdxFrom_getElem n xs j hj2 hj]
  intro heq
  have := congrArg Prod.snd heq
  simp at this
  omega

theorem countP_withIdxFrom_fst {α : Type} (p : α → Bool) (n : ℕ) (xs : List α) :
    (withIdxFrom n xs).countP (fun c => p c.1) = xs.countP p := by
  induction xs generalizing n with
  | nil => rfl
  | cons x xs ih =>
    show List.countP _ ((x, n) :: withIdxFrom (n + 1) xs) = _
    rw [List.countP_cons, List.countP_cons, ih]

theorem withIdxFrom_append {α : Type} (n : ℕ) (xs ys : List α) :
    withIdxFrom n (xs ++ ys) =
      withIdxFrom n xs ++ withIdxFrom (n + xs.length) ys := by
  induction xs generalizing n with
  | nil => simp [withIdxFrom]
  | cons x xs ih =>
    have hoff : n + 1 + xs.length = n + (x :: xs).length := by
      simp only [List.length_cons]
      omega
    show (x, n) :: withIdxFrom (n + 1) (xs ++ ys) =
      ((x, n) :: withIdxFrom (n + 1) xs) ++
        withIdxFrom (n + (x :: xs).length) ys
    rw [ih (n + 1), List.cons_append, hoff]

/-! ### Flattening blocks of constant width -/

theorem flatten_length_const {α : Type} {L : List (List α)} {W : ℕ}
    (h : ∀ l ∈ L, l.length = W) : L.flatten.length = L.length * W := by
  induction L with
  | nil => simp
  | cons l ls ih =>
    rw [List.flatten_cons, List.length_append, h l (List.mem_cons_self l ls),
      ih (fun l' hl' => h l' (List.mem_cons_of_mem l hl')), List.length_cons,
      Nat.succ_mul]
    ring

theorem getElem_flatten_const {α : Type} {L : List (List α)} {W : ℕ} (d : α)
    (h : ∀ l ∈ L, l.length = W) (r j : ℕ) (hr : r < L.length) (hj : j < W) :
    L.flatten.getD (r * W + j) d = (L.getD r []).getD j d := by
  induction L generalizing r with
  | nil => simp at hr
  | cons l ls ih =>
    have hlen : l.length = W := h l (List.mem_cons_self l ls)
    have htail : ∀ t ∈ ls, t.length = W :=
      fun t ht => h t (List.mem_cons_of_mem l ht)
    cases r with
    | zero =>
      simp only [List.flatten_cons, Nat.zero_mul, Nat.zero_add,
        List.getD_cons_zero]
      have hjl : j < l.length := by omega
      have hap : j < (l ++ ls.flatten).length := by
        rw [List.length_append]
        omega
      rw [List.getD_eq_getElem _ _ hap, List.getD_eq_getElem _ _ hjl,
        List.getElem_append_left hjl]
    | succ r =>
      have hr2 : r < ls.length := by simpa using hr
      simp only [List.flatten_cons, List.getD_cons_succ]
      rw [← ih htail r hr2]
      by_cases hin : r * W + j < ls.flatten.length
      · have hidx : (r + 1) * W + j = l.length + (r * W + j) := by
          rw [hlen]; ring
        have hap2 : (r + 1) * W + j < (l ++ ls.flatten).length := by
          rw [List.length_append]
          omega
        rw [List.getD_eq_getElem _ _ hap2, List.getD_eq_getElem _ _ hin,
          List.getElem_append_right
            (by omega : l.length ≤ (r + 1) * W + j)]
        have hsub : (r + 1) * W + j - l.length = r * W + j := by omega
        simp only [hsub]
      · have hb1 : (l ++ ls.flatten).length ≤ (r + 1) * W + j := by
          rw [List.length_append, hlen]
          have hexp : (r + 1) * W + j = W + (r * W + j) := by ring
          omega
        rw [List.getD_eq_default _ _ hb1,
          List.getD_eq_default _ _ (le_of_not_lt hin)]

/-! ### Shape lemmas for the embedded strategies -/

theorem topk_length {α : Type} [LinearOrder α] [DecidableEq α]
    (k : ℕ) (xs : List α) : (topk k xs).length = min k xs.length := by
  rw [topk, topSelect_length, withIdxFrom_length]

theorem mem_topk_snd_lt {α : Type} [LinearOrder α] [DecidableEq α]
    {k : ℕ} {xs : List α} {c : α × ℕ} (h : c ∈ topk k xs) :
    c.2 < xs.length := by
  have := withIdxFrom_snd_bounds (topSelect_subset c h)
  omega

theorem mem_topk_fst {α : Type} [LinearOrder α] [DecidableEq α]
    {k : ℕ} {xs : List α} {c : α × ℕ} (h : c ∈ topk k xs) :
    ∃ hj : c.2 < xs.length, c.1 = xs[c.2] := by
  rcases withIdxFrom_mem.mp (topSelect_subset c h) with ⟨j, hj, rfl⟩
  exact ⟨by simpa using hj, by simp⟩

theorem addHistory_length {α : Type} [LinearOrderedRing α] (step : ℕ)
    (lprobs scores : List (List (WithBot α))) :
    (addHistory step lprobs scores).length =
      min lprobs.length scores.length := by
  simp [addHistory, prevScores]

theorem addHistory_getElem {α : Type} [LinearOrderedRing α] (step : ℕ)
    (lprobs scores : List (List (WithBot α)))
    (r : ℕ) (hr : r < (addHistory step lprobs scores).length) :
    (addHistory step lprobs scores)[r] =
      (lprobs.getD r []).map
        (· + (scores.getD r []).getD (step - 1) 0) := by
  have hr1 : r < lprobs.length := by rw [addHistory_length] at hr; omega
  have hr2 : r < scores.length := by rw [addHistory_length] at hr; omega
  simp [addHistory, List.getElem_zipWith, prevScores, List.getD,
    List.getElem?_eq_getElem hr1, List.getElem?_eq_getElem hr2]

theorem addHistory_rect {α : Type} [LinearOrderedRing α] {step : ℕ}
    {lprobs scores : List (List (WithBot α))}
    (hrect : ∀ row ∈ lprobs, row.length = vocabOf lprobs) :
    ∀ row ∈ addHistory step lprobs scores, row.length = vocabOf lprobs := by
  intro row hrow
  rw [List.mem_iff_getElem] at hrow
  obtain ⟨i, hi, rfl⟩ := hrow
  have hi1 : i < lprobs.length := by rw [addHistory_length] at hi; omega
  rw [addHistory_getElem step lprobs scores i hi]
  simp only [List.length_map]
  refine hrect _ ?_
  rw [List.getD_eq_getElem _ _ hi1]
  exact lprobs.getElem_mem hi1

theorem beamFlat_length {α : Type} [LinearOrderedRing α] (step : ℕ)
    (lprobs scores : List (List (WithBot α)))
    (hrect : ∀ row ∈ lprobs, row.length = vocabOf lprobs)
    (hsc : scores.length = lprobs.length) (hK : 0 < lprobs.length) :
    ((if step = 0 then lprobs.take 1
        else addHistory step lprobs scores).flatten).length =
      if step = 0 then vocabOf lprobs
        else lprobs.length * vocabOf lprobs := by
  by_cases h : step = 0
  · rw [if_pos h, if_pos h]
    cases lprobs with
    | nil => simp at hK
    | cons x rest => simp [vocabOf]
  · rw [if_neg h, if_neg h]
    rw [flatten_length_const (addHistory_rect hrect), addHistory_length, hsc]
    simp

/-- Claim C2 counterexample input: `B = 1, K = 2, V = 3`. -/
def c2lprobs : List (List (WithBot ℤ)) := [[(1 : ℤ), 3, 2], [(4 : ℤ), 0, 1]]

/-- Claim C2 counterexample input: score history column. -/
def c2scores : List (List (WithBot ℤ)) := [[(10 : ℤ)], [(0 : ℤ)]]

/-- Claim C2 is false as stated: at `K = 2, V = 3, step = 1` the output width
is `min(2K, K*V - 1) = 4`, not `min(2K, V - 1) = 2`. -/
theorem beamSearch_width_counterexample :
    (BeamSearch.step 1 c2lprobs c2scores).1.length ≠
      min (2 * c2lprobs.length) (vocabOf c2lprobs - 1) := by decide

/-- Claim C2 (amended): the output width of `BeamSearch.step` is
`min(2K, F - 1)` where `F` is the flattened candidate count — `V` at step 0
but `K*V` at steps > 0 — for all three returned arrays, and at least one
flattened candidate slot is always excluded (`width < F`).  The width
formula of the original claim, `min(2K, V-1)`, holds at step 0 only. -/
theorem beamSearch_step_widths {α : Type} [LinearOrderedRing α]
    [DecidableEq α] (step : ℕ) (lprobs scores : List (List (WithBot α)))
    (hrect : ∀ row ∈ lprobs, row.length = vocabOf lprobs)
    (hsc : scores.length = lprobs.length)
    (hK : 0 < lprobs.length) (hV : 0 < vocabOf lprobs) :
    let F := if step = 0 then vocabOf lprobs
      else lprobs.length * vocabOf lprobs
    (BeamSearch.step step lprobs scores).1.length =
        min (2 * lprobs.length) (F - 1) ∧
      (BeamSearch.step step lprobs scores).2.1.length =
        min (2 * lprobs.length) (F - 1) ∧
      (BeamSearch.step step lprobs scores).2.2.length =
        min (2 * lprobs.length) (F - 1) ∧
      min (2 * lprobs.length) (F - 1) < F := by
  intro F
  have hF : 0 < F := by
    by_cases h : step = 0
    · simpa [F, h] using hV
    · simpa [F, h] using Nat.mul_pos hK hV
  have hflat := beamFlat_length step lprobs scores hrect hsc hK
  have hw : (topk (min (2 * lprobs.length)
      (((if step = 0 then lprobs.take 1
        else addHistory step lprobs scores).flatten).length - 1))
      ((if step = 0 then lprobs.take 1
        else addHistory step lprobs scores).flatten)).length =
      min (2 * lprobs.length) (F - 1) := by
    rw [topk_length, hflat]
    omega
  refine ⟨?_, ?_, ?_, by omega⟩ <;>
    simp only [BeamSearch.step, List.length_map] <;> exact hw

/-- Claim C2 witness: the amended width formula evaluated at the concrete
`K = 2, V = 3, step = 1` input. -/
theorem beamSearch_step_widths_witness :
    let F := if 1 = 0 then vocabOf c2lprobs
      else c2lprobs.length * vocabOf c2lprobs
    (BeamSearch.step 1 c2lprobs c2scores).1.length =
        min (2 * c2lprobs.length) (F - 1) ∧
      (BeamSearch.step 1 c2lprobs c2scores).2.1.length =
        min (2 * c2lprobs.length) (F - 1) ∧
      (BeamSearch.step 1 c2lprobs c2scores).2.2.length =
        min (2 * c2lprobs.length) (F - 1) ∧
      min (2 * c2lprobs.length) (F - 1) <
        (if 1 = 0 then vocabOf c2lprobs
          else c2lprobs.length * vocabOf c2lprobs) :=
  beamSearch_step_widths 1 c2lprobs c2scores (by decide) (by decide)
    (by decide) (by decide)

theorem beamSearch_step0_beams {α : Type} [LinearOrderedRing α] [DecidableEq α]
    (lprobs scores : List (List (WithBot α))) :
    (BeamSearch.step 0 lprobs scores).2.2 =
      List.replicate (BeamSearch.step 0 lprobs scores).2.2.length 0 := by
  apply List.eq_replicate_of_mem
  intro b hb
  simp only [BeamSearch.step, if_pos rfl] at hb
  rcases List.mem_map.mp hb with ⟨c, hc, rfl⟩
  have hlt : c.2 < ((lprobs.take 1).flatten).length := mem_topk_snd_lt hc
  have hfl : ((lprobs.take 1).flatten).length ≤ vocabOf lprobs := by
    cases lprobs with
    | nil => simp
    | cons x rest => simp [vocabOf]
  exact Nat.div_eq_of_lt (by omega)

/-- Claim C10: at step 0, the beam-origin arrays returned by
`BeamSearch.step`, `Sampling.step` (whenever it returns at all) and
`DiverseSiblingsSearch.step` are identically zero. -/
theorem step0_beams_all_zero {α : Type} [LinearOrderedRing α] [DecidableEq α] :
    (∀ lprobs scores : List (List (WithBot α)),
      (BeamSearch.step 0 lprobs scores).2.2 =
        List.replicate (BeamSearch.step 0 lprobs scores).2.2.length 0) ∧
    (∀ (tk : ℤ) (tp : α) (expF logF : α → α) (draw : ℕ → ℕ)
        (lprobs scores : List (List α)) (out : List α × List ℕ × List ℕ),
      Sampling.step tk tp expF logF draw 0 lprobs scores = some out →
        out.2.2 = List.replicate lprobs.length 0) ∧
    (∀ (rate : α) (lprobs scores : List (List (WithBot α)))
        (out : List (WithBot α) × List ℕ × List ℕ),
      DiverseSiblingsSearch.step rate 0 lprobs scores = some out →
        out.2.2 = List.replicate out.2.2.length 0) := by
  refine ⟨fun lprobs scores => beamSearch_step0_beams lprobs scores,
    ?_, ?_⟩
  · intro tk tp expF logF draw lprobs scores out h
    simp only [Sampling.step, if_pos rfl] at h
    by_cases h1 : 0 < tp
    · rw [if_pos h1] at h; cases h
    · rw [if_neg h1] at h
      by_cases h2 : 0 < tk
      · rw [if_pos h2] at h
        by_cases h3 : tk.toNat ≤ (lprobs.headD []).length
        · rw [if_pos h3] at h
          have := Option.some.inj h
          rw [← this]
          simp
        · rw [if_neg h3] at h; cases h
      · rw [if_neg h2] at h; cases h
  · intro rate lprobs scores out h
    have hdel : DiverseSiblingsSearch.step rate 0 lprobs scores =
        some (BeamSearch.step 0 lprobs scores) := by
      simp [DiverseSiblingsSearch.step]
    rw [hdel] at h
    rw [← Option.some.inj h]
    exact beamSearch_step0_beams lprobs scores

/-- Claim C10 witness: the three step-0 beam-origin facts at concrete
integer-valued inputs. -/
theorem step0_beams_all_zero_witness :
    ((BeamSearch.step 0 [[((1 : ℤ) : WithBot ℤ), ((2 : ℤ) : WithBot ℤ)]]
        [[]]).2.2 =
      List.replicate (BeamSearch.step 0
        [[((1 : ℤ) : WithBot ℤ), ((2 : ℤ) : WithBot ℤ)]] [[]]).2.2.length 0) ∧
    (([(1 : ℤ), (2 : ℤ)], [0, 1], ([0, 0] : List ℕ)).2.2 =
      List.replicate
        ([[(1 : ℤ), (2 : ℤ)], [(5 : ℤ), (6 : ℤ)]] :
          List (List ℤ)).length 0) ∧
    (((BeamSearch.step 0 [[((1 : ℤ) : WithBot ℤ), ((2 : ℤ) : WithBot ℤ)]]
        [[]]) : List (WithBot ℤ) × List ℕ × List ℕ).2.2 =
      List.replicate (BeamSearch.step 0
        [[((1 : ℤ) : WithBot ℤ), ((2 : ℤ) : WithBot ℤ)]] [[]]).2.2.length 0) :=
  ⟨(@step0_beams_all_zero ℤ _ _).1
      [[((1 : ℤ) : WithBot ℤ), ((2 : ℤ) : WithBot ℤ)]] [[]],
    (@step0_beams_all_zero ℤ _ _).2.1 2 (-1) id id (fun j => 1 - j)
      [[(1 : ℤ), (2 : ℤ)], [(5 : ℤ), (6 : ℤ)]] [[], []]
      ([(1 : ℤ), (2 : ℤ)], [0, 1], ([0, 0] : List ℕ)) (by decide),
    (@step0_beams_all_zero ℤ _ _).2.2 0
      [[((1 : ℤ) : WithBot ℤ), ((2 : ℤ) : WithBot ℤ)]] [[]]
      (BeamSearch.step 0 [[((1 : ℤ) : WithBot ℤ), ((2 : ℤ) : WithBot ℤ)]]
        [[]]) (by decide)⟩

/-- Claim C1 (code defect): with neither truncation mode configured
(`sampling_topk ≤ 0` and `sampling_topp ≤ 0`), `Sampling.step` always raises
(`logprob` is still `None` when line 259 executes `logprob.clone()`), for
every input — it never returns a triple. -/
theorem sampling_step_no_truncation_raises {α : Type} [LinearOrderedRing α]
    [DecidableEq α] (samplingTopk : ℤ) (samplingTopp : α) (expF logF : α → α)
    (draw : ℕ → ℕ) (step : ℕ) (lprobs scores : List (List α))
    (htk : samplingTopk ≤ 0) (htp : samplingTopp ≤ 0) :
    Sampling.step samplingTopk samplingTopp expF logF draw step lprobs
      scores = none := by
  simp only [Sampling.step]
  rw [if_neg (not_lt.mpr htp), if_neg (not_lt.mpr htk)]

/-- Claim C1 witness: the default configuration (`topk = topp = -1`) raises
on a concrete input. -/
theorem sampling_step_no_truncation_raises_witness :
    (-1 : ℤ) ≤ 0 ∧ (-1 : ℤ) ≤ 0 ∧
      Sampling.step (-1) (-1 : ℤ) id id (fun _ => 0) 0 [[(1 : ℤ), (2 : ℤ)]]
        [[]] = none :=
  ⟨by decide, by decide,
    sampling_step_no_truncation_raises (-1) (-1 : ℤ) id id (fun _ => 0) 0
      [[(1 : ℤ), (2 : ℤ)]] [[]] (by decide) (by decide)⟩

/-- Claim C3 (code defect): `LengthConstrainedBeamSearch.step` invoked before
`set_src_lengths` silently computes bounds from the `-1` sentinel and returns
a selection instead of raising: with `min_len_a = max_len_a = 1` and
`min_len_b = max_len_b = 0` the bounds become `min_len = max_len = -1`, so at
step 0 the `step > max_lens` branch force-masks end-of-sequence to `-inf` and
the step returns the non-eos token — no error is raised. -/
theorem lcbs_step_unset_src_lengths_silent :
    LengthConstrainedBeamSearch.step 1 (1 : ℤ) 0 1 0 defaultSrcLengths 0
      [[((0 : ℤ) : WithBot ℤ), ((5 : ℤ) : WithBot ℤ)]] [[]] =
      ([((0 : ℤ) : WithBot ℤ)], [0], [0]) := by decide

/-- Claim C4 counterexample: `BeamSearch.step` never inspects the pad id, so
when the pad token (fairseq default id 1) has the largest log-probability it
is returned: at `K = 1, V = 2, step = 0` with `lprobs = [[-5, 0]]` the
returned indices are `[1]`. -/
theorem beamSearch_pad_counterexample :
    1 ∈ (BeamSearch.step 0 [[((-5 : ℤ) : WithBot ℤ), ((0 : ℤ) : WithBot ℤ)]]
      [[]]).2.1 := by decide

theorem topk_not_selected {α : Type} [LinearOrder α] [DecidableEq α]
    {k : ℕ} {xs : List α} {j : ℕ} (hj : j < xs.length)
    (hcnt : k ≤ xs.countP (fun y => decide (xs[j] < y))) :
    ∀ c ∈ topk k xs, c.2 ≠ j := by
  intro c hc hceq
  subst hceq
  have hnd := withIdxFrom_nodup 0 xs
  have hmem := (mem_topSelect_iff hnd c).mp hc
  obtain ⟨hj2, hfst⟩ := mem_topk_fst hc
  have hge : xs.countP (fun y => decide (xs[c.2] < y)) ≤
      (withIdxFrom 0 xs).countP (fun y => decide (cLT y c)) := by
    rw [← countP_withIdxFrom_fst (fun y => decide (xs[c.2] < y)) 0 xs]
    apply List.countP_mono_left
    intro a _ hp
    apply decide_eq_true
    left
    rw [hfst]
    exact of_decide_eq_true hp
  have hlt := hmem.2
  omega

/-- Claim C4 (amended): `BeamSearch.step` only excludes one flattened
candidate slot from the top-k; the pad token itself is never consulted, and
it can be returned whenever its log-probability ranks among the top
`k = min(2K, F-1)` flattened candidates.  Pad is guaranteed unselectable
exactly under the caller-maintained invariant that every flattened pad
candidate is strictly exceeded by at least `k` other candidates (as when the
decoding loop masks pad to `-inf` and at least `k` non-pad candidates
remain). -/
theorem beamSearch_pad_never_selected {α : Type} [LinearOrderedRing α]
    [DecidableEq α] (step : ℕ) (lprobs scores : List (List (WithBot α)))
    (pad : ℕ)
    (hpad : ∀ j (hj : j < ((if step = 0 then lprobs.take 1
          else addHistory step lprobs scores).flatten).length),
      j % vocabOf lprobs = pad →
        min (2 * lprobs.length)
            (((if step = 0 then lprobs.take 1
              else addHistory step lprobs scores).flatten).length - 1) ≤
          ((if step = 0 then lprobs.take 1
            else addHistory step lprobs scores).flatten).countP
            (fun y => decide (((if step = 0 then lprobs.take 1
              else addHistory step lprobs scores).flatten).getD j ⊥ < y))) :
    pad ∉ (BeamSearch.step step lprobs scores).2.1 := by
  intro hmem
  have hmem' : pad ∈ (topk (min (2 * lprobs.length)
      (((if step = 0 then lprobs.take 1
        else addHistory step lprobs scores).flatten).length - 1))
      ((if step = 0 then lprobs.take 1
        else addHistory step lprobs scores).flatten)).map
      (fun c => c.2 % vocabOf lprobs) := by
    simpa only [BeamSearch.step] using hmem
  rcases List.mem_map.mp hmem' with ⟨c, hc, hcp⟩
  have hlt : c.2 < ((if step = 0 then lprobs.take 1
      else addHistory step lprobs scores).flatten).length :=
    mem_topk_snd_lt hc
  have hk := hpad c.2 hlt hcp
  rw [List.getD_eq_getElem _ _ hlt] at hk
  exact topk_not_selected hlt hk c hc rfl

/-- Claim C4 witness: with pad (id 1) masked to `-inf` on a two-beam block at
step 1, every flattened pad candidate is beaten by at least `k` others and
pad is not returned. -/
theorem beamSearch_pad_never_selected_witness :
    (1 : ℕ) ∉ (BeamSearch.step 1
      [[((5 : ℤ) : WithBot ℤ), ⊥, ((3 : ℤ) : WithBot ℤ),
          ((2 : ℤ) : WithBot ℤ), ((1 : ℤ) : WithBot ℤ)],
        [((4 : ℤ) : WithBot ℤ), ⊥, ((6 : ℤ) : WithBot ℤ),
          ((7 : ℤ) : WithBot ℤ), ((8 : ℤ) : WithBot ℤ)]]
      [[((0 : ℤ) : WithBot ℤ)], [((0 : ℤ) : WithBot ℤ)]]).2.1 :=
  beamSearch_pad_never_selected 1
    [[((5 : ℤ) : WithBot ℤ), ⊥, ((3 : ℤ) : WithBot ℤ),
        ((2 : ℤ) : WithBot ℤ), ((1 : ℤ) : WithBot ℤ)],
      [((4 : ℤ) : WithBot ℤ), ⊥, ((6 : ℤ) : WithBot ℤ),
        ((7 : ℤ) : WithBot ℤ), ((8 : ℤ) : WithBot ℤ)]]
    [[((0 : ℤ) : WithBot ℤ)], [((0 : ℤ) : WithBot ℤ)]] 1 (by decide)

/-! ### End-of-sequence masking (LengthConstrainedBeamSearch) -/

theorem getD_set_spec {β : Type} (row : List β) (i t : ℕ) (v d : β) :
    (row.set i v).getD t d =
      if t = i ∧ i < row.length then v else row.getD t d := by
  induction row generalizing i t with
  | nil => simp
  | cons x xs ih =>
    cases i with
    | zero =>
      cases t with
      | zero => simp
      | succ t => simp
    | succ i =>
      cases t with
      | zero => simp
      | succ t =>
        show (xs.set i v).getD t d = _
        rw [ih i t]
        by_cases h : t = i ∧ i < xs.length
        · rw [if_pos h, if_pos (by simp; omega)]
        · rw [if_neg h, if_neg (by simp; omega), List.getD_cons_succ]

theorem getD_map_list {β γ : Type} (f : β → γ) (l : List β) (r : ℕ)
    (d : γ) (d' : β) (hr : r < l.length) :
    (l.map f).getD r d = f (l.getD r d') := by
  rw [List.getD_eq_getElem _ _ (by simpa using hr),
    List.getD_eq_getElem _ _ hr, List.getElem_map]

theorem maskEos_eq_map {α : Type} [LinearOrderedRing α] (eos : ℕ)
    (minLen maxLen : α) (step : ℕ) (lprobs : List (List (WithBot α))) :
    maskEos eos minLen maxLen step lprobs = lprobs.map (fun row =>
      let r1 := if (step : α) < minLen then row.set eos ⊥ else row
      let r2 := if (step : α) = maxLen then r1.set eos (0 : WithBot α) else r1
      if maxLen < (step : α) then r2.set eos ⊥ else r2) := by
  simp only [maskEos]
  by_cases h1 : (step : α) < minLen
  · by_cases h2 : (step : α) = maxLen
    · by_cases h3 : maxLen < (step : α)
      · exact absurd (h2 ▸ h3) (lt_irrefl _)
      · simp only [eq_true h1, eq_true h2, eq_false h3, if_true, if_false,
          List.map_map]
        try rfl
    · by_cases h3 : maxLen < (step : α)
      · simp only [eq_true h1, eq_false h2, eq_true h3, if_true, if_false,
          List.map_map]
        try rfl
      · simp only [eq_true h1, eq_false h2, eq_false h3, if_true, if_false]
        try rfl
  · by_cases h2 : (step : α) = maxLen
    · by_cases h3 : maxLen < (step : α)
      · exact absurd (h2 ▸ h3) (lt_irrefl _)
      · simp only [eq_false h1, eq_true h2, eq_false h3, if_true, if_false]
        try rfl
    · by_cases h3 : maxLen < (step : α)
      · simp only [eq_false h1, eq_false h2, eq_true h3, if_true, if_false]
        try rfl
      · simp only [eq_false h1, eq_false h2, eq_false h3, if_false]
        exact (List.map_id' lprobs).symm

/-- Claim C7 counterexample: with `min_len_a = max_len_a = 0`,
`min_len_b = 5`, `max_len_b = 2` (so `min_len = 5 > max_len = 2`) at
`step = 2 < min_len`, the claim requires the end-of-sequence log-probability
to be `-inf`, but the `step == max_lens` write executes afterwards and leaves
it at `0`. -/
theorem maskEos_counterexample :
    ((2 : ℕ) : ℤ) < 0 * 3 + 5 ∧
      ((maskEos 1 ((0 : ℤ) * 3 + 5) (0 * 3 + 2) 2
          [[((7 : ℤ) : WithBot ℤ), ((9 : ℤ) : WithBot ℤ)]]).getD 0 []).getD
          1 0 = (0 : WithBot ℤ) ∧
      ((0 : WithBot ℤ) ≠ ⊥) := by decide

/-- Claim C7 (amended): the three end-of-sequence writes of
`LengthConstrainedBeamSearch.step` are applied in order, so the
`step == max_len` write takes precedence over the `step < min_len` mask when
the two overlap (possible only when `max_len < min_len`): the final
end-of-sequence value is `0` when `step = max_len`; `-inf` when
`step ≠ max_len` and (`step < min_len` or `step > max_len`); unchanged
otherwise.  All other vocabulary entries and all shapes are preserved. -/
theorem maskEos_spec {α : Type} [LinearOrderedRing α] (eos : ℕ)
    (minLen maxLen : α) (step : ℕ) (lprobs : List (List (WithBot α))) :
    (maskEos eos minLen maxLen step lprobs).length = lprobs.length ∧
    (∀ r, ((maskEos eos minLen maxLen step lprobs).getD r []).length =
      (lprobs.getD r []).length) ∧
    ∀ r t, r < lprobs.length → t < (lprobs.getD r []).length →
      ((maskEos eos minLen maxLen step lprobs).getD r []).getD t 0 =
        if t = eos then
          (if (step : α) = maxLen then (0 : WithBot α)
            else if (step : α) < minLen ∨ maxLen < (step : α) then ⊥
            else (lprobs.getD r []).getD t 0)
        else (lprobs.getD r []).getD t 0 := by
  rw [maskEos_eq_map]
  refine ⟨by simp, ?_, ?_⟩
  · intro r
    by_cases hr : r < lprobs.length
    · rw [getD_map_list _ _ _ _ [] hr]
      by_cases h1 : (step : α) < minLen <;> by_cases h2 : (step : α) = maxLen
        <;> by_cases h3 : maxLen < (step : α) <;>
        first
          | exact absurd (h2 ▸ h3) (lt_irrefl _)
          | (simp [h1, h2, h3, List.length_set]
             try (split <;> simp [List.length_set]))
    · rw [List.getD_eq_default _ _ (by simpa using not_lt.mp hr),
        List.getD_eq_default _ _ (not_lt.mp hr)]
  · intro r t hr ht
    rw [getD_map_list _ _ _ _ [] hr]
    by_cases h2 : (step : α) = maxLen
    · by_cases h3 : maxLen < (step : α)
      · exact absurd (h2 ▸ h3) (lt_irrefl _)
      · by_cases h1 : (step : α) < minLen
        · simp only [eq_true h1, eq_true h2, eq_false h3, if_true, if_false]
          rw [getD_set_spec]
          by_cases hte : t = eos
          · rw [if_pos ⟨hte, by rw [List.length_set]; exact hte ▸ ht⟩,
              if_pos hte]
          · rw [if_neg (fun hc => hte hc.1), getD_set_spec,
              if_neg (fun hc => hte hc.1), if_neg hte]
        · simp only [eq_false h1, eq_true h2, eq_false h3, if_true, if_false]
          rw [getD_set_spec]
          by_cases hte : t = eos
          · rw [if_pos ⟨hte, hte ▸ ht⟩, if_pos hte]
          · rw [if_neg (fun hc => hte hc.1), if_neg hte]
    · by_cases h3 : maxLen < (step : α)
      · by_cases h1 : (step : α) < minLen
        · simp only [eq_true h1, eq_false h2, eq_true h3, if_true, if_false,
            or_true, true_or]
          rw [getD_set_spec]
          by_cases hte : t = eos
          · rw [if_pos ⟨hte, by rw [List.length_set]; exact hte ▸ ht⟩,
              if_pos hte]
          · rw [if_neg (fun hc => hte hc.1), getD_set_spec,
              if_neg (fun hc => hte hc.1), if_neg hte]
        · simp only [eq_false h1, eq_false h2, eq_true h3, if_true, if_false,
            or_true, true_or, false_or]
          rw [getD_set_spec]
          by_cases hte : t = eos
          · rw [if_pos ⟨hte, hte ▸ ht⟩, if_pos hte]
          · rw [if_neg (fun hc => hte hc.1), if_neg hte]
      · by_cases h1 : (step : α) < minLen
        · simp only [eq_true h1, eq_false h2, eq_false h3, if_true, if_false,
            or_false, true_or]
          rw [getD_set_spec]
          by_cases hte : t = eos
          · rw [if_pos ⟨hte, hte ▸ ht⟩, if_pos hte]
          · rw [if_neg (fun hc => hte hc.1), if_neg hte]
        · simp only [eq_false h1, eq_false h2, eq_false h3, if_false,
            or_false, false_or]
          by_cases hte : t = eos
          · rw [if_pos hte]
          · rw [if_neg hte]

/-- Claim C7 witness: the amended masking characterization evaluated at a
concrete configuration (`min_len = 3, max_len = 5, step = 5`). -/
theorem maskEos_spec_witness :
    (maskEos 1 (3 : ℤ) 5 5 [[((7 : ℤ) : WithBot ℤ),
        ((9 : ℤ) : WithBot ℤ)]]).length =
      ([[((7 : ℤ) : WithBot ℤ), ((9 : ℤ) : WithBot ℤ)]] :
        List (List (WithBot ℤ))).length ∧
    (∀ r, ((maskEos 1 (3 : ℤ) 5 5 [[((7 : ℤ) : WithBot ℤ),
        ((9 : ℤ) : WithBot ℤ)]]).getD r []).length =
      (([[((7 : ℤ) : WithBot ℤ), ((9 : ℤ) : WithBot ℤ)]] :
        List (List (WithBot ℤ))).getD r []).length) ∧
    ∀ r t, r < ([[((7 : ℤ) : WithBot ℤ), ((9 : ℤ) : WithBot ℤ)]] :
        List (List (WithBot ℤ))).length →
      t < (([[((7 : ℤ) : WithBot ℤ), ((9 : ℤ) : WithBot ℤ)]] :
        List (List (WithBot ℤ))).getD r []).length →
      ((maskEos 1 (3 : ℤ) 5 5 [[((7 : ℤ) : WithBot ℤ),
          ((9 : ℤ) : WithBot ℤ)]]).getD r []).getD t 0 =
        if t = 1 then
          (if ((5 : ℕ) : ℤ) = 5 then (0 : WithBot ℤ)
            else if ((5 : ℕ) : ℤ) < 3 ∨ 5 < ((5 : ℕ) : ℤ) then ⊥
            else (([[((7 : ℤ) : WithBot ℤ), ((9 : ℤ) : WithBot ℤ)]] :
              List (List (WithBot ℤ))).getD r []).getD t 0)
        else (([[((7 : ℤ) : WithBot ℤ), ((9 : ℤ) : WithBot ℤ)]] :
          List (List (WithBot ℤ))).getD r []).getD t 0 :=
  maskEos_spec 1 (3 : ℤ) 5 5 [[((7 : ℤ) : WithBot ℤ), ((9 : ℤ) : WithBot ℤ)]]

/-! ### Sorting and cumulative sums (Sampling top-p) -/

theorem withIdxFrom_map_fst {α : Type} (n : ℕ) (xs : List α) :
    (withIdxFrom n xs).map (·.1) = xs := by
  induction xs generalizing n with
  | nil => rfl
  | cons x xs ih => simp [withIdxFrom, ih]

theorem sortDesc_perm {α : Type} [LinearOrderedRing α] [DecidableEq α]
    (l : List α) : (sortDesc l).Perm (withIdxFrom 0 l) := by
  have hnd := withIdxFrom_nodup 0 l
  have hsp : (sortDesc l).Subperm (withIdxFrom 0 l) :=
    (topSelect_nodup hnd).subperm (fun x hx => topSelect_subset x hx)
  refine hsp.perm_of_length_le ?_
  rw [sortDesc, topk, topSelect_length, withIdxFrom_length]
  simp

theorem sortDesc_values_perm {α : Type} [LinearOrderedRing α] [DecidableEq α]
    (l : List α) : ((sortDesc l).map (·.1)).Perm l := by
  have h := (sortDesc_perm l).map (·.1)
  rwa [withIdxFrom_map_fst] at h

theorem sortDesc_sorted {α : Type} [LinearOrderedRing α] [DecidableEq α]
    (l : List α) :
    ((sortDesc l).map (·.1)).Pairwise (fun a b => b ≤ a) := by
  apply List.pairwise_map.mpr
  apply List.Pairwise.imp ?_ (topSelect_sorted (withIdxFrom_nodup 0 l))
  intro a b h
  rcases h with h | ⟨h, _⟩
  · exact le_of_lt h
  · exact le_of_eq h.symm

theorem cumsum_length {α : Type} [LinearOrderedRing α] (l : List α) :
    (cumsum l).length = l.length := by
  induction l with
  | nil => rfl
  | cons x xs ih => simp [cumsum, ih]

theorem cumsum_getD {α : Type} [LinearOrderedRing α] (l : List α) (i : ℕ)
    (hi : i < l.length) :
    (cumsum l).getD i 0 = (l.take (i + 1)).sum := by
  induction l generalizing i with
  | nil => simp at hi
  | cons x xs ih =>
    cases i with
    | zero => simp [cumsum]
    | succ i =>
      have hi2 : i < xs.length := by simpa using hi
      rw [show cumsum (x :: xs) = x :: (cumsum xs).map (x + ·) from rfl,
        List.getD_cons_succ,
        getD_map_list (x + ·) (cumsum xs) i 0 0
          (by rw [cumsum_length]; exact hi2),
        ih i hi2]
      simp

theorem take_sum_mono {α : Type} [LinearOrderedRing α] {l : List α}
    (hpos : ∀ q ∈ l, 0 ≤ q) {i j : ℕ} (hij : i ≤ j) :
    (l.take i).sum ≤ (l.take j).sum := by
  have heq : l.take i = (l.take j).take i := by
    rw [List.take_take, min_eq_left hij]
  rw [heq]
  exact (List.take_sublist i (l.take j)).sum_le_sum
    (fun a ha => hpos a ((List.take_sublist j l).subset ha))


theorem countP_lt_monotone_first {α : Type} [LinearOrderedRing α]
    (xs : List α) (p : α)
    (hmono : ∀ i j : ℕ, i ≤ j → j < xs.length → xs.getD i 0 ≤ xs.getD j 0) :
    (∀ i, i < xs.countP (fun q => decide (q < p)) → xs.getD i 0 < p) ∧
      (xs.countP (fun q => decide (q < p)) < xs.length →
        p ≤ xs.getD (xs.countP (fun q => decide (q < p))) 0) := by
  constructor
  · intro i hi
    by_contra hge
    push_neg at hge
    have hilen : i < xs.length := lt_of_lt_of_le hi (List.countP_le_length _)
    have hcnt : xs.countP (fun q => decide (q < p)) =
        (xs.take i).countP (fun q => decide (q < p)) +
          (xs.drop i).countP (fun q => decide (q < p)) := by
      conv_lhs => rw [← List.take_append_drop i xs]
      exact List.countP_append _ _ _
    have hdrop : (xs.drop i).countP (fun q => decide (q < p)) = 0 := by
      apply List.countP_eq_zero.mpr
      intro a ha
      rw [List.mem_iff_getElem] at ha
      obtain ⟨m, hm, rfl⟩ := ha
      rw [List.getElem_drop]
      have hlen : i + m < xs.length := by
        have := hm
        rw [List.length_drop] at this
        omega
      have hle : xs.getD i 0 ≤ xs.getD (i + m) 0 := hmono i (i + m) (by omega) hlen
      rw [List.getD_eq_getElem _ _ hilen, List.getD_eq_getElem _ _ hlen] at hle
      intro hlt'
      rw [decide_eq_true_eq] at hlt'
      rw [List.getD_eq_getElem _ _ hilen] at hge
      exact absurd (lt_of_le_of_lt hle hlt') (not_lt.mpr hge)
    have htake : (xs.take i).countP (fun q => decide (q < p)) ≤ i := by
      refine le_trans (List.countP_le_length _) ?_
      rw [List.length_take]
      omega
    omega
  · intro hc
    by_contra hlt
    push_neg at hlt
    have hall : ∀ a ∈ xs.take (xs.countP (fun q => decide (q < p)) + 1),
        (fun q => decide (q < p)) a = true := by
      intro a ha
      rw [List.mem_iff_getElem] at ha
      obtain ⟨m, hm, rfl⟩ := ha
      rw [List.getElem_take]
      have hmlen : m < xs.length := by
        have := hm
        rw [List.length_take] at this
        omega
      have hmc : m ≤ xs.countP (fun q => decide (q < p)) := by
        have := hm
        rw [List.length_take] at this
        omega
      have hle : xs.getD m 0 ≤ xs.getD (xs.countP (fun q => decide (q < p))) 0 :=
        hmono m _ hmc hc
      apply decide_eq_true
      rw [List.getD_eq_getElem _ _ hmlen] at hle
      exact lt_of_le_of_lt hle hlt
    have htake : (xs.take (xs.countP (fun q => decide (q < p)) + 1)).countP
        (fun q => decide (q < p)) =
        xs.countP (fun q => decide (q < p)) + 1 := by
      rw [List.countP_eq_length.mpr hall, List.length_take]
      omega
    have hle := (List.take_sublist (xs.countP (fun q => decide (q < p)) + 1)
      xs).countP_le (fun q => decide (q < p))
    omega

theorem le_foldr_max {l : List ℕ} {x : ℕ} (h : x ∈ l) : x ≤ l.foldr max 0 := by
  induction l with
  | nil => cases h
  | cons y ys ih =>
    rcases List.mem_cons.mp h with rfl | h'
    · exact le_max_left _ _
    · exact le_trans (ih h') (le_max_right _ _)

theorem getD_zip {β γ : Type} (A : List β) (B : List γ) (r : ℕ) (dB : β)
    (dC : γ) (h1 : r < A.length) (h2 : r < B.length) :
    (A.zip B).getD r (dB, dC) = (A.getD r dB, B.getD r dC) := by
  rw [List.getD_eq_getElem _ _ (by rw [List.length_zip]; omega),
    List.getElem_zip, List.getD_eq_getElem _ _ h1, List.getD_eq_getElem _ _ h2]

/-- Claim C5 (amended): for a probability distribution row and `0 < p ≤ 1`,
`_sample_topp` selects exactly the smallest prefix of the
descending-sorted tokens whose cumulative mass reaches or exceeds `p` — all
tokens with cumulative mass strictly below `p`, plus exactly one more — and
the selected prefix is never empty.  (The included mass can equal `p`
exactly, so it does not always strictly exceed `p`.) -/
theorem sample_topp_selected {α : Type} [LinearOrderedRing α] [DecidableEq α]
    (p : α) (probs : List (List α)) (r : ℕ)
    (hp0 : 0 < p) (hp1 : p ≤ 1)
    (hpos : ∀ row ∈ probs, ∀ q ∈ row, 0 ≤ q)
    (hsum : ∀ row ∈ probs, row.sum = 1)
    (hr : r < probs.length) :
    (let svals := (sortDesc (probs.getD r [])).map (·.1)
     let c := (cumsum svals).countP (fun q => decide (q < p))
     let trimmed := (sampleToppCore p probs).1.getD r []
     c < svals.length ∧
      p ≤ (cumsum svals).getD c 0 ∧
      (∀ i, i < c → (cumsum svals).getD i 0 < p) ∧
      c < trimmed.length ∧
      (∀ i, i < trimmed.length →
        trimmed.getD i 0 = if i ≤ c then svals.getD i 0 else 0) ∧
      (∀ i, i ≤ c → 0 < svals.getD i 0)) := by
  intro svals c trimmed
  have hrow : probs.getD r [] ∈ probs := by
    rw [List.getD_eq_getElem _ _ hr]
    exact probs.getElem_mem hr
  have hsv_perm : List.Perm svals (probs.getD r []) :=
    sortDesc_values_perm (probs.getD r [])
  have hsv_sum : svals.sum = 1 := by
    rw [hsv_perm.sum_eq]
    exact hsum _ hrow
  have hsv_pos : ∀ q ∈ svals, 0 ≤ q :=
    fun q hq => hpos _ hrow q (hsv_perm.subset hq)
  have hsv_ne : 0 < svals.length := by
    rcases Nat.eq_zero_or_pos svals.length with h0 | h
    · exfalso
      have : svals = [] := List.length_eq_zero.mp h0
      rw [this, List.sum_nil] at hsv_sum
      exact zero_ne_one hsv_sum
    · exact h
  have hclen : (cumsum svals).length = svals.length := cumsum_length svals
  have hmono : ∀ i j : ℕ, i ≤ j → j < (cumsum svals).length →
      (cumsum svals).getD i 0 ≤ (cumsum svals).getD j 0 := by
    intro i j hij hj
    rw [hclen] at hj
    rw [cumsum_getD svals i (by omega), cumsum_getD svals j hj]
    exact take_sum_mono hsv_pos (by omega)
  have hlast : ¬ ((cumsum svals).getD (svals.length - 1) 0 < p) := by
    rw [cumsum_getD svals (svals.length - 1) (by omega)]
    have heq : svals.take (svals.length - 1 + 1) = svals := by
      have h1 : svals.length - 1 + 1 = svals.length := by omega
      rw [h1, List.take_length]
    rw [heq, hsv_sum]
    exact not_lt.mpr hp1
  have hc_lt : c < svals.length := by
    rcases Nat.lt_or_ge c svals.length with h | h
    · exact h
    exfalso
    have hcle : (cumsum svals).countP (fun q => decide (q < p)) ≤
        (cumsum svals).length := List.countP_le_length _
    have hceq : (cumsum svals).countP (fun q => decide (q < p)) =
        (cumsum svals).length := by
      have : c = (cumsum svals).countP (fun q => decide (q < p)) := rfl
      omega
    have hall := List.countP_eq_length.mp hceq
    have hmem : (cumsum svals).getD (svals.length - 1) 0 ∈ cumsum svals := by
      rw [List.getD_eq_getElem _ _ (by omega)]
      exact (cumsum svals).getElem_mem _
    exact hlast (of_decide_eq_true (hall _ hmem))
  have hfirst := countP_lt_monotone_first (cumsum svals) p hmono
  have hc2 : p ≤ (cumsum svals).getD c 0 := hfirst.2 (by omega)
  have hc3 : ∀ i, i < c → (cumsum svals).getD i 0 < p :=
    fun i hi => hfirst.1 i hi
  have hpos_sel : ∀ i, i ≤ c → 0 < svals.getD i 0 := by
    intro i hic
    have hilen : i < svals.length := by omega
    by_contra hle
    push_neg at hle
    have hzero : ∀ j, i ≤ j → j < svals.length → svals.getD j 0 = 0 := by
      intro j hij hj
      have hji : svals.getD j 0 ≤ svals.getD i 0 := by
        rcases Nat.eq_or_lt_of_le hij with rfl | hlt'
        · exact le_refl _
        · have hs := List.pairwise_iff_getElem.mp
            (sortDesc_sorted (probs.getD r [])) i j hilen hj hlt'
          rw [List.getD_eq_getElem _ _ hj, List.getD_eq_getElem _ _ hilen]
          exact hs
      have hj0 : 0 ≤ svals.getD j 0 := hsv_pos _ (by
        rw [List.getD_eq_getElem _ _ hj]
        exact svals.getElem_mem hj)
      exact le_antisymm (le_trans hji hle) hj0
    have hdrop0 : (svals.drop i).sum = 0 := by
      apply List.sum_eq_zero
      intro x hx
      rw [List.mem_iff_getElem] at hx
      obtain ⟨m, hm, rfl⟩ := hx
      have hmlen : i + m < svals.length := by
        have := hm
        rw [List.length_drop] at this
        omega
      rw [List.getElem_drop]
      have hz := hzero (i + m) (by omega) hmlen
      rw [List.getD_eq_getElem _ _ hmlen] at hz
      exact hz
    have hsum_take : (svals.take i).sum = 1 := by
      have hsplit := List.sum_take_add_sum_drop svals i
      rw [hdrop0, add_zero, hsv_sum] at hsplit
      exact hsplit
    rcases Nat.eq_zero_or_pos i with rfl | hipos
    · rw [List.take_zero, List.sum_nil] at hsum_take
      exact zero_ne_one hsum_take
    · have hi1 : i - 1 < c := by omega
      have hlt1 := hc3 (i - 1) hi1
      rw [cumsum_getD svals (i - 1) (by omega),
        show i - 1 + 1 = i by omega, hsum_take] at hlt1
      exact absurd hlt1 (not_lt.mpr hp1)
  have hL1 : (probs.map sortDesc).length = probs.length := by simp
  have hS1 : (probs.map sortDesc).getD r [] = sortDesc (probs.getD r []) :=
    getD_map_list _ _ _ _ [] hr
  have hL2 : ((probs.map sortDesc).map
      (List.map (·.1) : List (α × ℕ) → List α)).length = probs.length := by
    simp
  have hS2 : ((probs.map sortDesc).map
      (List.map (·.1) : List (α × ℕ) → List α)).getD r [] = svals := by
    rw [getD_map_list _ _ _ _ [] (by rw [hL1]; exact hr), hS1]
  have hL3 : (((probs.map sortDesc).map
      (List.map (·.1) : List (α × ℕ) → List α)).map cumsum).length =
      probs.length := by simp
  have hS3 : (((probs.map sortDesc).map
      (List.map (·.1) : List (α × ℕ) → List α)).map cumsum).getD r [] =
      cumsum svals := by
    rw [getD_map_list _ _ _ _ [] (by rw [hL2]; exact hr), hS2]
  have hL4 : (toppMask p probs).length = probs.length := by
    simp [toppMask]
  have hS4 : (toppMask p probs).getD r [] =
      (cumsum svals).map (fun x => decide (x < p)) := by
    rw [toppMask, getD_map_list _ _ _ _ [] (by rw [hL3]; exact hr), hS3]
  have hcntmask : ((cumsum svals).map
      (fun x => decide (x < p))).countP (fun b => b) = c := by
    rw [List.countP_map]
    rfl
  have hL5 : (toppLastIncluded p probs).length = probs.length := by
    simp [toppLastIncluded, hL4]
  have hS5 : (toppLastIncluded p probs).getD r 0 = c := by
    rw [toppLastIncluded, getD_map_list _ _ _ _ [] (by rw [hL4]; exact hr),
      hS4, hcntmask]
    have hlen : ((cumsum svals).map (fun x => decide (x < p))).length =
        svals.length := by
      rw [List.length_map, hclen]
    rw [hlen]
    omega
  have hcmax : c ≤ toppMaxDim p probs := by
    refine le_trans (le_of_eq hS5.symm) (le_foldr_max ?_)
    rw [List.getD_eq_getElem _ _ (by rw [hL5]; exact hr)]
    exact List.getElem_mem _
  have htrim : (sampleToppCore p probs).1.getD r [] =
      List.zipWith (fun q b => if b then q else (0 : α))
        (svals.take (toppMaxDim p probs + 1))
        ((((cumsum svals).map (fun x => decide (x < p))).set c true).take
          (toppMaxDim p probs + 1)) := by
    have hrfl : (sampleToppCore p probs).1 =
        ((((probs.map sortDesc).map
            (List.map (·.1) : List (α × ℕ) → List α)).map
            (List.take (toppMaxDim p probs + 1))).zip
          ((((toppMask p probs).zip (toppLastIncluded p probs)).map
            (fun x => x.1.set x.2 true)).map
            (List.take (toppMaxDim p probs + 1)))).map
          (fun x => List.zipWith (fun q b => if b then q else (0 : α))
            x.1 x.2) := rfl
    rw [hrfl]
    rw [getD_map_list _ _ r [] ([], []) (by
      rw [List.length_zip, List.length_map, hL2, List.length_map,
        List.length_map, List.length_zip, hL4, hL5]
      omega)]
    rw [getD_zip _ _ r [] []
      (by rw [List.length_map, hL2]; exact hr)
      (by rw [List.length_map, List.length_map, List.length_zip, hL4, hL5]
          omega)]
    rw [getD_map_list _ _ r [] [] (by rw [hL2]; exact hr), hS2]
    rw [getD_map_list _ _ r [] [] (by
      rw [List.length_map, List.length_zip, hL4, hL5]
      omega)]
    rw [getD_map_list _ _ r [] ([], 0) (by
      rw [List.length_zip, hL4, hL5]
      omega)]
    rw [getD_zip _ _ r [] 0 (by rw [hL4]; exact hr) (by rw [hL5]; exact hr)]
    rw [hS4, hS5]
  refine ⟨hc_lt, hc2, hc3, ?_, ?_, hpos_sel⟩
  · show c < ((sampleToppCore p probs).1.getD r []).length
    rw [htrim]
    simp only [List.length_zipWith, List.length_take, List.length_set,
      List.length_map, hclen]
    omega
  · intro i hi
    have hi' : i < ((sampleToppCore p probs).1.getD r []).length := hi
    rw [htrim] at hi'
    simp only [List.length_zipWith, List.length_take, List.length_set,
      List.length_map, hclen] at hi'
    show ((sampleToppCore p probs).1.getD r []).getD i 0 =
      if i ≤ c then svals.getD i 0 else 0
    rw [htrim]
    have hib : i < (List.zipWith (fun q b => if b then q else (0 : α))
        (svals.take (toppMaxDim p probs + 1))
        ((((cumsum svals).map (fun x => decide (x < p))).set c true).take
          (toppMaxDim p probs + 1))).length := by
      simp only [List.length_zipWith, List.length_take, List.length_set,
        List.length_map, hclen]
      omega
    rw [List.getD_eq_getElem _ _ hib, List.getElem_zipWith,
      List.getElem_take, List.getElem_take, List.getElem_set]
    have hisv : i < svals.length := by omega
    by_cases hic : i = c
    · rw [if_pos (by omega : c = i), if_pos (by omega : i ≤ c),
        List.getD_eq_getElem _ _ hisv]
      simp
    · rw [if_neg (by omega : ¬ c = i)]
      rw [List.getElem_map]
      by_cases hile : i ≤ c
      · have hltc : i < c := by omega
        have hlt := hc3 i hltc
        rw [List.getD_eq_getElem _ _ (by omega :
          i < (cumsum svals).length)] at hlt
        rw [if_pos (decide_eq_true hlt), if_pos hile,
          List.getD_eq_getElem _ _ hisv]
      · have hicum : i < (cumsum svals).length := by omega
        have hccum : c < (cumsum svals).length := by omega
        have hge : p ≤ (cumsum svals)[i] := by
          have hm := hmono c i (by omega) hicum
          rw [List.getD_eq_getElem _ _ hccum,
            List.getD_eq_getElem _ _ hicum] at hm
          have hc2x := hc2
          rw [List.getD_eq_getElem _ _ hccum] at hc2x
          exact le_trans hc2x hm
        rw [if_neg (by
          simp only [decide_eq_true_eq]
          exact not_lt.mpr hge), if_neg hile]

/-- Claim C5 counterexample: for the probability distribution `[1]` and
`p = 1` (so `0 < p ≤ 1`), `_sample_topp` selects the single token, whose
cumulative mass equals `p` exactly and does not strictly exceed it (no
prefix with mass strictly above `p` exists at all). -/
theorem sample_topp_counterexample :
    (sampleToppCore (1 : ℤ) [[(1 : ℤ)]]).1 = [[(1 : ℤ)]] ∧
      (sampleToppCore (1 : ℤ) [[(1 : ℤ)]]).2 = [[0]] ∧
      ((sampleToppCore (1 : ℤ) [[(1 : ℤ)]]).1.getD 0 []).sum = 1 ∧
      ¬ ((1 : ℤ) < 1) := by decide

/-- Claim C5 witness: the amended characterization evaluated on the
distribution `[1]` with `p = 1`. -/
theorem sample_topp_selected_witness :
    let svals := (sortDesc (([[(1 : ℤ)]] :
      List (List ℤ)).getD 0 [])).map (·.1)
    let c := (cumsum svals).countP (fun q => decide (q < (1 : ℤ)))
    let trimmed := (sampleToppCore (1 : ℤ) [[(1 : ℤ)]]).1.getD 0 []
    c < svals.length ∧
      (1 : ℤ) ≤ (cumsum svals).getD c 0 ∧
      (∀ i, i < c → (cumsum svals).getD i 0 < (1 : ℤ)) ∧
      c < trimmed.length ∧
      (∀ i, i < trimmed.length →
        trimmed.getD i 0 = if i ≤ c then svals.getD i 0 else 0) ∧
      (∀ i, i ≤ c → 0 < svals.getD i 0) :=
  sample_topp_selected (1 : ℤ) [[(1 : ℤ)]] 0 (by decide) (by decide)
    (by decide) (by decide) (by decide)

/-! ### DiverseSiblingsSearch characterization -/

theorem zipWith_sub_sibling {α : Type} [LinearOrderedRing α] [DecidableEq α]
    (rate : α) (k : ℕ) (st : List ((WithBot α) × ℕ)) (hst : st.length = k) :
    List.zipWith (fun x q => x + ((-q : α) : WithBot α)) (st.map (·.1))
      ((List.range k).map (fun i => ((i + 1 : ℕ) : α) * rate)) =
    (List.range k).map (fun j => (st.getD j (0, 0)).1 +
      ((-(((j + 1 : ℕ) : α) * rate) : α) : WithBot α)) := by
  apply List.ext_getElem
  · simp [hst]
  · intro n h1 h2
    have hn : n < k := by simpa using h2
    have hnst : n < st.length := by omega
    rw [List.getElem_zipWith, List.getElem_map, List.getElem_map,
      List.getElem_map, List.getElem_range]
    rw [List.getD_eq_getElem _ _ hnst]

theorem addHistory_getD_length {α : Type} [LinearOrderedRing α]
    {step : ℕ} {lprobs scores : List (List (WithBot α))}
    (hrect : ∀ row ∈ lprobs, row.length = vocabOf lprobs)
    (hsc : scores.length = lprobs.length) {i : ℕ} (hi : i < lprobs.length) :
    ((addHistory step lprobs scores).getD i []).length = vocabOf lprobs := by
  have hlen : (addHistory step lprobs scores).length = lprobs.length := by
    rw [addHistory_length, hsc]
    simp
  apply addHistory_rect hrect
  rw [List.getD_eq_getElem _ _ (by omega)]
  exact List.getElem_mem _

theorem slot_map_eq {α : Type} [LinearOrderedRing α] [DecidableEq α]
    (k V : ℕ) (rate : α) (lp : List (List (WithBot α)))
    (hrow : ∀ row ∈ lp, row.length = V) (hkV : k ≤ V) :
    (lp.map (fun row => topk k row)).map (fun st =>
      List.zipWith (fun x q => x + ((-q : α) : WithBot α)) (st.map (·.1))
        ((List.range k).map (fun i => ((i + 1 : ℕ) : α) * rate))) =
    (List.range lp.length).map (fun i => (List.range k).map (fun j =>
      ((topk k (lp.getD i [])).getD j (0, 0)).1 +
        ((-(((j + 1 : ℕ) : α) * rate) : α) : WithBot α))) := by
  apply List.ext_getElem
  · simp
  · intro n h1 h2
    have hn : n < lp.length := by simpa using h1
    rw [List.getElem_map, List.getElem_map, List.getElem_map,
      List.getElem_range, List.getD_eq_getElem _ _ hn]
    apply zipWith_sub_sibling
    rw [topk_length, hrow _ (List.getElem_mem _)]
    omega

theorem slot_idx_eq {α : Type} [LinearOrderedRing α] [DecidableEq α]
    (k V : ℕ) (lp : List (List (WithBot α))) :
    (lp.map (fun row => topk k row)).map (List.map (fun c => c.2 % V)) =
    (List.range lp.length).map (fun i =>
      (topk k (lp.getD i [])).map (fun c => c.2 % V)) := by
  apply List.ext_getElem
  · simp
  · intro n h1 h2
    have hn : n < lp.length := by simpa using h1
    rw [List.getElem_map, List.getElem_map, List.getElem_map,
      List.getElem_range, List.getD_eq_getElem _ _ hn]

/-- C9: for step > 0 (with rectangular input, matching score rows, and the
candidate count k = min(2K, K*V-1) at most V so that the per-slot top-k is
well-defined), DiverseSiblingsSearch.step takes each slot's top-k candidates
after adding the slot's history score, subtracts the penalty (j+1)*rate from
the j-th ranked sibling, pools the K*k penalized candidates, returns the
global top-k, recovers each winner's beam origin as its pooled index divided
by k, and its token id from the per-slot candidate table. -/
theorem dss_step_characterization {α : Type} [LinearOrderedRing α] [DecidableEq α]
    (rate : α) (step : ℕ) (lprobs scores : List (List (WithBot α)))
    (hrect : ∀ row ∈ lprobs, row.length = vocabOf lprobs)
    (hsc : scores.length = lprobs.length)
    (hstep : step ≠ 0)
    (hkV : min (2 * lprobs.length) (lprobs.length * vocabOf lprobs - 1) ≤
      vocabOf lprobs) :
    DiverseSiblingsSearch.step rate step lprobs scores =
      some (dssSpec rate step lprobs scores) := by
  have hlp : (addHistory step lprobs scores).length = lprobs.length := by
    rw [addHistory_length, hsc]
    simp
  have h1 := slot_map_eq (min (2 * lprobs.length)
    (lprobs.length * vocabOf lprobs - 1)) (vocabOf lprobs) rate
    (addHistory step lprobs scores) (addHistory_rect hrect) hkV
  have h2 := slot_idx_eq (min (2 * lprobs.length)
    (lprobs.length * vocabOf lprobs - 1)) (vocabOf lprobs)
    (addHistory step lprobs scores)
  rw [hlp] at h1 h2
  simp only [DiverseSiblingsSearch.step, dssSpec]
  rw [if_neg hstep, if_pos hkV, h1, h2]

/-- Witness for C9: the characterization applies to a concrete K = 2, V = 5
input at step 1 with rate 1. -/
theorem dss_step_characterization_witness :
    (∀ row ∈ c9lprobs, row.length = vocabOf c9lprobs) ∧
    c9scores.length = c9lprobs.length ∧
    DiverseSiblingsSearch.step (1 : ℤ) 1 c9lprobs c9scores =
      some (dssSpec (1 : ℤ) 1 c9lprobs c9scores) ∧
    dssSpec (1 : ℤ) 1 c9lprobs c9scores =
      ([((14 : ℤ) : WithBot ℤ), ((11 : ℤ) : WithBot ℤ),
        ((9 : ℤ) : WithBot ℤ), ((7 : ℤ) : WithBot ℤ)],
       [4, 1, 2, 0], [0, 0, 0, 0]) :=
  ⟨by decide, by decide,
   dss_step_characterization 1 1 c9lprobs c9scores (by decide) (by decide)
     (by decide) (by decide), by decide⟩

/-- Counterexample to C9 as stated: at K = 2, V = 3 the candidate count
k = min(4, 5) = 4 exceeds V, so the per-slot top-k raises (torch.topk with
k larger than the dimension) instead of returning the described triple. -/
theorem dss_step_characterization_counterexample :
    DiverseSiblingsSearch.step (1 : ℤ) 1 c2lprobs c2scores = none := by decide

/-! ### DiverseBeamSearch interleaving -/

theorem groupOut_eq {α : Type} [LinearOrderedRing α] [DecidableEq α]
    (strength : α) (G step : ℕ) (lprobs scores : List (List (WithBot α)))
    (g : ℕ) :
    DiverseBeamSearch.groupOut strength G step lprobs scores g =
      ((DiverseBeamSearch.localOut strength G step lprobs scores g).1,
       (DiverseBeamSearch.localOut strength G step lprobs scores g).2.1,
       (DiverseBeamSearch.localOut strength G step lprobs scores g).2.2.map
         (fun x => x * G + g)) := rfl

theorem localOut_eq_beamSearch {α : Type} [LinearOrderedRing α] [DecidableEq α]
    (strength : α) (G step : ℕ) (lprobs scores : List (List (WithBot α)))
    (g : ℕ) :
    DiverseBeamSearch.localOut strength G step lprobs scores g =
      BeamSearch.step step
        (if 0 < g then DiverseBeamSearch.penalize strength
          (DiverseBeamSearch.bufAfter strength G step lprobs scores g)
          (strideSlice g G lprobs) else strideSlice g G lprobs)
        (strideSlice g G scores) := rfl

theorem beamSearch_step_lengths {α : Type} [LinearOrderedRing α] [DecidableEq α]
    (step : ℕ) (lprobs scores : List (List (WithBot α))) :
    (BeamSearch.step step lprobs scores).2.1.length =
      (BeamSearch.step step lprobs scores).1.length ∧
    (BeamSearch.step step lprobs scores).2.2.length =
      (BeamSearch.step step lprobs scores).1.length := by
  constructor <;> simp [BeamSearch.step]

theorem groupOut_lengths {α : Type} [LinearOrderedRing α] [DecidableEq α]
    (strength : α) (G step : ℕ) (lprobs scores : List (List (WithBot α)))
    (g : ℕ) :
    (DiverseBeamSearch.groupOut strength G step lprobs scores g).2.1.length =
      (DiverseBeamSearch.groupOut strength G step lprobs scores g).1.length ∧
    (DiverseBeamSearch.groupOut strength G step lprobs scores g).2.2.length =
      (DiverseBeamSearch.groupOut strength G step lprobs scores g).1.length := by
  rw [groupOut_eq, localOut_eq_beamSearch]
  dsimp only
  refine ⟨(beamSearch_step_lengths step _ _).1, ?_⟩
  rw [List.length_map]
  exact (beamSearch_step_lengths step _ _).2

theorem filterMap_getElem_eq_map {β : Type} (w : ℕ) (d : β)
    (ls : List (List β)) (h : ∀ l ∈ ls, w < l.length) :
    ls.filterMap (fun l => l[w]?) = ls.map (fun l => l.getD w d) := by
  induction ls with
  | nil => rfl
  | cons a as ih =>
    have ha : w < a.length := h a (List.mem_cons_self a as)
    simp only [List.filterMap_cons, List.getElem?_eq_getElem ha, List.map_cons]
    rw [List.getD_eq_getElem _ _ ha,
      ih (fun l hl => h l (List.mem_cons_of_mem a hl))]

theorem getD_flatten_const {β : Type} {L : List (List β)} {Wb : ℕ} (d : β)
    (h : ∀ l ∈ L, l.length = Wb) {r j : ℕ} (hr : r < L.length) (hj : j < Wb) :
    L.flatten.getD (r * Wb + j) d = (L.getD r []).getD j d :=
  getElem_flatten_const d h r j hr hj

theorem interleave_length {β : Type} (W : ℕ) (d : β) (ls : List (List β))
    (hrect : ∀ l ∈ ls, l.length = W) :
    (interleave W ls).length = W * ls.length := by
  have hb : ∀ b ∈ (List.range W).map (fun v => ls.filterMap (fun l => l[v]?)),
      b.length = ls.length := by
    intro b hbm
    rcases List.mem_map.mp hbm with ⟨v, hv, rfl⟩
    have hvW : v < W := List.mem_range.mp hv
    rw [filterMap_getElem_eq_map v d ls
      (fun l hl => by rw [hrect l hl]; exact hvW), List.length_map]
  show (((List.range W).map (fun v =>
    ls.filterMap (fun l => l[v]?))).flatten).length = W * ls.length
  rw [flatten_length_const hb, List.length_map, List.length_range]

theorem interleave_getD {β : Type} (W : ℕ) (d : β) (ls : List (List β))
    (hrect : ∀ l ∈ ls, l.length = W) {g w : ℕ} (hg : g < ls.length)
    (hw : w < W) :
    (interleave W ls).getD (w * ls.length + g) d = (ls.getD g []).getD w d := by
  have hcols : ∀ l ∈ ls, w < l.length := fun l hl => by
    rw [hrect l hl]
    exact hw
  have hb : ∀ b ∈ (List.range W).map (fun v => ls.filterMap (fun l => l[v]?)),
      b.length = ls.length := by
    intro b hbm
    rcases List.mem_map.mp hbm with ⟨v, hv, rfl⟩
    have hvW : v < W := List.mem_range.mp hv
    rw [filterMap_getElem_eq_map v d ls
      (fun l hl => by rw [hrect l hl]; exact hvW), List.length_map]
  have hr : w < ((List.range W).map (fun v =>
      ls.filterMap (fun l => l[v]?))).length := by
    simpa using hw
  show (((List.range W).map (fun v =>
    ls.filterMap (fun l => l[v]?))).flatten).getD (w * ls.length + g) d = _
  rw [getD_flatten_const d hb hr hg,
    getD_map_list (fun v => ls.filterMap (fun l => l[v]?)) (List.range W) w
      [] 0 (by simpa using hw)]
  have hrg : (List.range W).getD w 0 = w := by
    rw [List.getD_eq_getElem _ _ (by simpa using hw), List.getElem_range]
  rw [hrg, filterMap_getElem_eq_map w d ls hcols,
    getD_map_list (fun l => l.getD w d) ls g d [] hg]

/-- C8: when the beam width is divisible by the number of groups G (and all
groups produce the same per-group output width W), DiverseBeamSearch.step
succeeds, each output component has width W * G (num_groups times the
per-group width), output position w * G + g holds group g's entry w for the
scores and token indices, and the beam entry at that position is the
group-local beam id of group g's w-th choice remapped to the global id
b * G + g. -/
theorem diverseBeamSearch_step_interleave {α : Type} [LinearOrderedRing α]
    [DecidableEq α] (strength : α) (G step W : ℕ)
    (lprobs scores : List (List (WithBot α))) (hG : G ≠ 0)
    (hdvd : lprobs.length % G = 0)
    (hW : ∀ g < G,
      (DiverseBeamSearch.groupOut strength G step lprobs scores g).1.length
        = W) :
    ∃ o, DiverseBeamSearch.step strength G step lprobs scores = some o ∧
      o.1.length = W * G ∧ o.2.1.length = W * G ∧ o.2.2.length = W * G ∧
      ∀ g < G, ∀ w < W,
        o.1.getD (w * G + g) 0 =
          (DiverseBeamSearch.localOut strength G step lprobs scores g).1.getD
            w 0 ∧
        o.2.1.getD (w * G + g) 0 =
          (DiverseBeamSearch.localOut strength G step lprobs
            scores g).2.1.getD w 0 ∧
        o.2.2.getD (w * G + g) 0 =
          (DiverseBeamSearch.localOut strength G step lprobs
            scores g).2.2.getD w 0 * G + g := by
  have hguard : ¬(G = 0 ∨ lprobs.length % G ≠ 0) := by simp [hG, hdvd]
  have houts : ((List.range G).map
      (DiverseBeamSearch.groupOut strength G step lprobs scores)).length
      = G := by simp
  have hmem1 : ∀ l ∈ (((List.range G).map
      (DiverseBeamSearch.groupOut strength G step lprobs scores)).map (·.1)),
      l.length = W := by
    intro l hl
    rcases List.mem_map.mp hl with ⟨t, ht, rfl⟩
    rcases List.mem_map.mp ht with ⟨g, hgr, rfl⟩
    exact hW g (List.mem_range.mp hgr)
  have hmem2 : ∀ l ∈ (((List.range G).map
      (DiverseBeamSearch.groupOut strength G step lprobs scores)).map
      (·.2.1)), l.length = W := by
    intro l hl
    rcases List.mem_map.mp hl with ⟨t, ht, rfl⟩
    rcases List.mem_map.mp ht with ⟨g, hgr, rfl⟩
    rw [(groupOut_lengths strength G step lprobs scores g).1]
    exact hW g (List.mem_range.mp hgr)
  have hmem3 : ∀ l ∈ (((List.range G).map
      (DiverseBeamSearch.groupOut strength G step lprobs scores)).map
      (·.2.2)), l.length = W := by
    intro l hl
    rcases List.mem_map.mp hl with ⟨t, ht, rfl⟩
    rcases List.mem_map.mp ht with ⟨g, hgr, rfl⟩
    rw [(groupOut_lengths strength G step lprobs scores g).2]
    exact hW g (List.mem_range.mp hgr)
  have hgetD : ∀ g < G,
      ((List.range G).map
        (DiverseBeamSearch.groupOut strength G step lprobs scores)).getD g
        ([], [], []) =
      DiverseBeamSearch.groupOut strength G step lprobs scores g := by
    intro g hg
    rw [getD_map_list (DiverseBeamSearch.groupOut strength G step lprobs
      scores) (List.range G) g ([], [], []) 0 (by simpa using hg)]
    congr 1
    rw [List.getD_eq_getElem _ _ (by simpa using hg), List.getElem_range]
  have hW' : (((List.range G).map
      (DiverseBeamSearch.groupOut strength G step lprobs
        scores)).headD ([], [], [])).1.length = W := by
    have h0 : 0 < G := Nat.pos_of_ne_zero hG
    have hh : ((List.range G).map
        (DiverseBeamSearch.groupOut strength G step lprobs
          scores)).headD ([], [], []) =
        DiverseBeamSearch.groupOut strength G step lprobs scores 0 := by
      rcases G with _ | n
      · exact absurd rfl hG
      · rw [List.range_succ_eq_map]
        simp
    rw [hh]
    exact hW 0 h0
  refine ⟨(interleave W (((List.range G).map
      (DiverseBeamSearch.groupOut strength G step lprobs scores)).map (·.1)),
    interleave W (((List.range G).map
      (DiverseBeamSearch.groupOut strength G step lprobs scores)).map
      (·.2.1)),
    interleave W (((List.range G).map
      (DiverseBeamSearch.groupOut strength G step lprobs scores)).map
      (·.2.2))), ?_, ?_, ?_, ?_, ?_⟩
  · simp only [DiverseBeamSearch.step]
    rw [if_neg hguard, hW']
  · rw [interleave_length W (0 : WithBot α) _ hmem1, List.length_map, houts]
  · rw [interleave_length W (0 : ℕ) _ hmem2, List.length_map, houts]
  · rw [interleave_length W (0 : ℕ) _ hmem3, List.length_map, houts]
  · intro g hg w hw
    have hg1 : g < (((List.range G).map
        (DiverseBeamSearch.groupOut strength G step lprobs scores)).map
        (·.1)).length := by simpa using hg
    have hg2 : g < (((List.range G).map
        (DiverseBeamSearch.groupOut strength G step lprobs scores)).map
        (·.2.1)).length := by simpa using hg
    have hg3 : g < (((List.range G).map
        (DiverseBeamSearch.groupOut strength G step lprobs scores)).map
        (·.2.2)).length := by simpa using hg
    have hi1 := interleave_getD W (0 : WithBot α) _ hmem1 hg1 hw
    have hi2 := interleave_getD W (0 : ℕ) _ hmem2 hg2 hw
    have hi3 := interleave_getD W (0 : ℕ) _ hmem3 hg3 hw
    rw [List.length_map, houts] at hi1 hi2 hi3
    have hm1 : ((((List.range G).map
        (DiverseBeamSearch.groupOut strength G step lprobs scores)).map
        (·.1)).getD g []) =
        (DiverseBeamSearch.groupOut strength G step lprobs scores g).1 := by
      rw [getD_map_list (·.1) _ g [] ([], [], []) (by simpa using hg),
        hgetD g hg]
    have hm2 : ((((List.range G).map
        (DiverseBeamSearch.groupOut strength G step lprobs scores)).map
        (·.2.1)).getD g []) =
        (DiverseBeamSearch.groupOut strength G step lprobs scores g).2.1 := by
      rw [getD_map_list (·.2.1) _ g [] ([], [], []) (by simpa using hg),
        hgetD g hg]
    have hm3 : ((((List.range G).map
        (DiverseBeamSearch.groupOut strength G step lprobs scores)).map
        (·.2.2)).getD g []) =
        (DiverseBeamSearch.groupOut strength G step lprobs scores g).2.2 := by
      rw [getD_map_list (·.2.2) _ g [] ([], [], []) (by simpa using hg),
        hgetD g hg]
    refine ⟨?_, ?_, ?_⟩
    · rw [hi1, hm1, groupOut_eq]
    · rw [hi2, hm2, groupOut_eq]
    · rw [hi3, hm3, groupOut_eq]
      have hlen22 : w < (DiverseBeamSearch.localOut strength G step lprobs
          scores g).2.2.length := by
        have h1 : (DiverseBeamSearch.groupOut strength G step lprobs
            scores g).2.2.length = W := by
          rw [(groupOut_lengths strength G step lprobs scores g).2]
          exact hW g hg
        rw [groupOut_eq] at h1
        dsimp only at h1
        rw [List.length_map] at h1
        omega
      exact getD_map_list (fun x => x * G + g) _ w 0 0 hlen22

/-- Witness for C8: the interleaving theorem applies to a concrete input with
K = 2 beams split into G = 2 groups of width W = 2 at step 1. -/
theorem diverseBeamSearch_step_interleave_witness :
    (2 : ℕ) ≠ 0 ∧ c2lprobs.length % 2 = 0 ∧
    (∃ o, DiverseBeamSearch.step (1 : ℤ) 2 1 c2lprobs c2scores = some o ∧
      o.1.length = 2 * 2 ∧ o.2.1.length = 2 * 2 ∧ o.2.2.length = 2 * 2 ∧
      ∀ g < 2, ∀ w < 2,
        o.1.getD (w * 2 + g) 0 =
          (DiverseBeamSearch.localOut (1 : ℤ) 2 1 c2lprobs c2scores g).1.getD
            w 0 ∧
        o.2.1.getD (w * 2 + g) 0 =
          (DiverseBeamSearch.localOut (1 : ℤ) 2 1 c2lprobs
            c2scores g).2.1.getD w 0 ∧
        o.2.2.getD (w * 2 + g) 0 =
          (DiverseBeamSearch.localOut (1 : ℤ) 2 1 c2lprobs
            c2scores g).2.2.getD w 0 * 2 + g) :=
  ⟨by decide, by decide,
   diverseBeamSearch_step_interleave 1 2 1 2 c2lprobs c2scores (by decide)
     (by decide) (by decide)⟩

/-! ### DiverseSiblingsSearch with zero diversity rate -/

theorem getD_mem_of_lt {β : Type} {l : List β} {j : ℕ} (hj : j < l.length)
    (d : β) : l.getD j d ∈ l := by
  rw [List.getD_eq_getElem _ _ hj]
  exact List.getElem_mem _

theorem getD_row_length {β : Type} {V : ℕ} {lp : List (List β)}
    (hrect : ∀ row ∈ lp, row.length = V) {r : ℕ} (hr : r < lp.length) :
    (lp.getD r []).length = V :=
  hrect _ (getD_mem_of_lt hr [])

theorem pooledVals_blocks {β : Type} [LinearOrder β] [DecidableEq β]
    {V k : ℕ} {lp : List (List β)} (hrect : ∀ row ∈ lp, row.length = V)
    (hkV : k ≤ V) :
    ∀ b ∈ (lp.map (fun row => topk k row)).map (fun st => st.map (·.1)),
      b.length = k := by
  intro b hbm
  rcases List.mem_map.mp hbm with ⟨st, hst, rfl⟩
  rcases List.mem_map.mp hst with ⟨row, hrow, rfl⟩
  rw [List.length_map, topk_length, hrect row hrow]
  omega

theorem pooledVals_length {β : Type} [LinearOrder β] [DecidableEq β]
    {V k : ℕ} {lp : List (List β)} (hrect : ∀ row ∈ lp, row.length = V)
    (hkV : k ≤ V) : (pooledVals k lp).length = lp.length * k := by
  unfold pooledVals
  rw [flatten_length_const (pooledVals_blocks hrect hkV), List.length_map,
    List.length_map]

theorem pooledVals_getD {β : Type} [LinearOrder β] [DecidableEq β]
    {V k : ℕ} {lp : List (List β)} (hrect : ∀ row ∈ lp, row.length = V)
    (hkV : k ≤ V) {r j : ℕ} (hr : r < lp.length) (hj : j < k) (d : β) :
    (pooledVals k lp).getD (r * k + j) d =
      ((topk k (lp.getD r [])).getD j (d, 0)).1 := by
  unfold pooledVals
  rw [getD_flatten_const d (pooledVals_blocks hrect hkV) (by simpa using hr)
    hj]
  rw [getD_map_list (fun st : List (β × ℕ) => st.map (·.1)) _ r [] []
    (by simpa using hr)]
  rw [getD_map_list (fun row => topk k row) lp r [] [] hr]
  have hjlen : j < (topk k (lp.getD r [])).length := by
    rw [topk_length, getD_row_length hrect hr]
    omega
  rw [getD_map_list (·.1) _ j d (d, 0) hjlen]

theorem slotCands_blocks {β : Type} [LinearOrder β] [DecidableEq β]
    {V k : ℕ} {lp : List (List β)} (hrect : ∀ row ∈ lp, row.length = V)
    (hkV : k ≤ V) :
    ∀ b ∈ (List.range lp.length).map (fun r =>
      (topk k (lp.getD r [])).map (fun c => (c.1, r * V + c.2))),
      b.length = k := by
  intro b hbm
  rcases List.mem_map.mp hbm with ⟨r, hr, rfl⟩
  rw [List.length_map, topk_length,
    getD_row_length hrect (List.mem_range.mp hr)]
  omega

theorem slotCands_length {β : Type} [LinearOrder β] [DecidableEq β]
    {V k : ℕ} {lp : List (List β)} (hrect : ∀ row ∈ lp, row.length = V)
    (hkV : k ≤ V) : (slotCands V k lp).length = lp.length * k := by
  unfold slotCands
  rw [flatten_length_const (slotCands_blocks hrect hkV), List.length_map,
    List.length_range]

theorem slotCands_getD {β : Type} [LinearOrder β] [DecidableEq β]
    {V k : ℕ} {lp : List (List β)} (hrect : ∀ row ∈ lp, row.length = V)
    (hkV : k ≤ V) {r j : ℕ} (hr : r < lp.length) (hj : j < k) (d : β × ℕ) :
    (slotCands V k lp).getD (r * k + j) d =
      (((topk k (lp.getD r [])).getD j d).1,
        r * V + ((topk k (lp.getD r [])).getD j d).2) := by
  unfold slotCands
  rw [getD_flatten_const d (slotCands_blocks hrect hkV) (by simpa using hr)
    hj]
  rw [getD_map_list (fun r => (topk k (lp.getD r [])).map
    (fun c => (c.1, r * V + c.2))) (List.range lp.length) r [] 0
    (by simpa using hr)]
  have hrg : (List.range lp.length).getD r 0 = r := by
    rw [List.getD_eq_getElem _ _ (by simpa using hr), List.getElem_range]
  rw [hrg]
  have hjlen : j < (topk k (lp.getD r [])).length := by
    rw [topk_length, getD_row_length hrect hr]
    omega
  rw [getD_map_list (fun c => (c.1, r * V + c.2)) _ j d d hjlen]

theorem slotCands_mem {β : Type} [LinearOrder β] [DecidableEq β] {V k : ℕ}
    {lp : List (List β)} {x : β × ℕ} :
    x ∈ slotCands V k lp ↔
      ∃ r, r < lp.length ∧
        ∃ c ∈ topk k (lp.getD r []), x = (c.1, r * V + c.2) := by
  unfold slotCands
  constructor
  · intro hx
    rcases List.mem_flatten.mp hx with ⟨blk, hblk, hxblk⟩
    rcases List.mem_map.mp hblk with ⟨r, hrm, rfl⟩
    rcases List.mem_map.mp hxblk with ⟨c, hc, rfl⟩
    exact ⟨r, List.mem_range.mp hrm, c, hc, rfl⟩
  · rintro ⟨r, hr, c, hc, rfl⟩
    exact List.mem_flatten.mpr
      ⟨(topk k (lp.getD r [])).map (fun c => (c.1, r * V + c.2)),
       List.mem_map.mpr ⟨r, List.mem_range.mpr hr, rfl⟩,
       List.mem_map.mpr ⟨c, hc, rfl⟩⟩

theorem slotCands_nodup {β : Type} [LinearOrder β] [DecidableEq β] {V k : ℕ}
    {lp : List (List β)} (hrect : ∀ row ∈ lp, row.length = V) :
    (slotCands V k lp).Nodup := by
  unfold slotCands
  rw [List.nodup_flatten]
  constructor
  · intro blk hblk
    rcases List.mem_map.mp hblk with ⟨r, hrm, rfl⟩
    refine (topSelect_nodup (withIdxFrom_nodup 0 _)).map_on ?_
    intro x hx y hy hxy
    rw [Prod.mk.injEq] at hxy
    exact Prod.ext hxy.1 (by omega)
  · rw [List.pairwise_map]
    refine (List.pairwise_lt_range _).imp_of_mem ?_
    intro a b ha hb hab
    intro x hxa hxb
    rcases List.mem_map.mp hxa with ⟨c, hc, rfl⟩
    rcases List.mem_map.mp hxb with ⟨c2, hc2, he⟩
    have hcV : c.2 < V := by
      have := mem_topk_snd_lt hc
      rwa [getD_row_length hrect (List.mem_range.mp ha)] at this
    rw [Prod.mk.injEq] at he
    have hmul : (a + 1) * V ≤ b * V := Nat.mul_le_mul_right _ hab
    have hexp : (a + 1) * V = a * V + V := by ring
    have hsnd := he.2
    omega

theorem topSelect_slotCands_eq {β : Type} [LinearOrder β] [DecidableEq β]
    {V k : ℕ} {lp : List (List β)} (hrect : ∀ row ∈ lp, row.length = V)
    (hkV : k ≤ V) :
    topSelect k (slotCands V k lp) = topk k lp.flatten := by
  have hflatlen : lp.flatten.length = lp.length * V :=
    flatten_length_const hrect
  have hsub : ∀ x ∈ slotCands V k lp, x ∈ withIdxFrom 0 lp.flatten := by
    intro x hx
    rcases slotCands_mem.mp hx with ⟨r, hr, c, hc, rfl⟩
    have hrowlen : (lp.getD r []).length = V := getD_row_length hrect hr
    have hcV : c.2 < V := by
      have := mem_topk_snd_lt hc
      rwa [hrowlen] at this
    rcases mem_topk_fst hc with ⟨hj, hval⟩
    have hpos : r * V + c.2 < lp.flatten.length := by
      rw [hflatlen]
      have h1 : (r + 1) * V ≤ lp.length * V := Nat.mul_le_mul_right _ hr
      have h2 : (r + 1) * V = r * V + V := by ring
      omega
    refine withIdxFrom_mem.mpr ⟨r * V + c.2, hpos, ?_⟩
    have h3 := getD_flatten_const c.1 hrect hr hcV
    rw [List.getD_eq_getElem _ _ hpos, List.getD_eq_getElem _ _ hj] at h3
    rw [Prod.mk.injEq]
    exact ⟨hval.trans h3.symm, by omega⟩
  have hcover : ∀ x ∈ withIdxFrom 0 lp.flatten,
      (withIdxFrom 0 lp.flatten).countP (fun y => decide (cLT y x)) < k →
      x ∈ slotCands V k lp := by
    intro x hx hcnt
    rcases Nat.eq_zero_or_pos k with hk0 | hk0
    · omega
    have hV0 : 0 < V := by omega
    rcases withIdxFrom_mem.mp hx with ⟨p, hp, rfl⟩
    have hpKV : p < lp.length * V := by rwa [hflatlen] at hp
    have hr : p / V < lp.length :=
      Nat.div_lt_of_lt_mul (by rwa [Nat.mul_comm] at hpKV)
    have hi : p % V < V := Nat.mod_lt _ hV0
    have hdec : p / V * V + p % V = p := by
      rw [Nat.mul_comm (p / V) V]
      exact Nat.div_add_mod p V
    have hrowlen : (lp.getD (p / V) []).length = V := getD_row_length hrect hr
    have hiLen : p % V < (lp.getD (p / V) []).length := by
      rw [hrowlen]
      exact hi
    have h3 := getD_flatten_const (lp.flatten[p]) hrect hr hi
    rw [hdec, List.getD_eq_getElem _ _ hp,
      List.getD_eq_getElem _ _ hiLen] at h3
    have hloc : (withIdxFrom 0 (lp.getD (p / V) [])).countP
        (fun y => decide (cLT y ((lp.getD (p / V) [])[p % V], p % V)))
        < k := by
      have hmapsub : ∀ y ∈ (withIdxFrom 0 (lp.getD (p / V) [])).filter
          (fun y => decide (cLT y ((lp.getD (p / V) [])[p % V], p % V))),
          (y.1, p / V * V + y.2) ∈ (withIdxFrom 0 lp.flatten).filter
            (fun y => decide (cLT y (lp.flatten[p], 0 + p))) := by
        intro y hy
        rcases List.mem_filter.mp hy with ⟨hymem, hycd⟩
        have hyc : cLT y ((lp.getD (p / V) [])[p % V], p % V) :=
          of_decide_eq_true hycd
        rcases withIdxFrom_mem.mp hymem with ⟨j, hjlen, rfl⟩
        have hjV : j < V := by
          rw [hrowlen] at hjlen
          exact hjlen
        have hposj : p / V * V + j < lp.flatten.length := by
          rw [hflatlen]
          have h1 : (p / V + 1) * V ≤ lp.length * V :=
            Nat.mul_le_mul_right _ hr
          have h2 : (p / V + 1) * V = p / V * V + V := by ring
          omega
        have hjlen2 : j < (lp.getD (p / V) []).length := by
          rw [hrowlen]
          exact hjV
        have h4 := getD_flatten_const ((lp.getD (p / V) [])[j]) hrect hr hjV
        rw [List.getD_eq_getElem _ _ hposj,
          List.getD_eq_getElem _ _ hjlen2] at h4
        refine List.mem_filter.mpr ⟨?_, ?_⟩
        · refine withIdxFrom_mem.mpr ⟨p / V * V + j, hposj, ?_⟩
          rw [Prod.mk.injEq]
          constructor
          · exact h4.symm
          · show p / V * V + (0 + j) = 0 + (p / V * V + j)
            omega
        · refine decide_eq_true ?_
          rcases hyc with hlt | ⟨heq, hlt⟩
          · left
            show lp.flatten[p] < (lp.getD (p / V) [])[j]
            rw [h3]
            exact hlt
          · right
            constructor
            · show (lp.getD (p / V) [])[j] = lp.flatten[p]
              rw [h3]
              exact heq
            · show p / V * V + (0 + j) < 0 + p
              have hy2 : 0 + j < p % V := hlt
              omega
      have hnd1 : (((withIdxFrom 0 (lp.getD (p / V) [])).filter
          (fun y => decide (cLT y ((lp.getD (p / V) [])[p % V],
            p % V)))).map (fun y => (y.1, p / V * V + y.2))).Nodup := by
        refine ((withIdxFrom_nodup 0 _).filter _).map_on ?_
        intro a ha b hb hab
        rw [Prod.mk.injEq] at hab
        exact Prod.ext hab.1 (by omega)
      have hsp : (((withIdxFrom 0 (lp.getD (p / V) [])).filter
          (fun y => decide (cLT y ((lp.getD (p / V) [])[p % V],
            p % V)))).map (fun y => (y.1, p / V * V + y.2))).Subperm
          ((withIdxFrom 0 lp.flatten).filter
            (fun y => decide (cLT y (lp.flatten[p], 0 + p)))) := by
        refine hnd1.subperm ?_
        intro z hz
        rcases List.mem_map.mp hz with ⟨y, hy, rfl⟩
        exact hmapsub y hy
      have hlen := hsp.length_le
      rw [List.length_map, ← List.countP_eq_length_filter,
        ← List.countP_eq_length_filter] at hlen
      omega
    have hxloc : ((lp.getD (p / V) [])[p % V], p % V) ∈
        topk k (lp.getD (p / V) []) := by
      refine (mem_topSelect_iff (withIdxFrom_nodup 0 _) _).mpr ⟨?_, hloc⟩
      refine withIdxFrom_mem.mpr ⟨p % V, hiLen, ?_⟩
      rw [Prod.mk.injEq]
      exact ⟨rfl, by omega⟩
    refine slotCands_mem.mpr ⟨p / V, hr,
      ((lp.getD (p / V) [])[p % V], p % V), hxloc, ?_⟩
    rw [Prod.mk.injEq]
    exact ⟨h3, by omega⟩
  have hres := topSelect_eq_of_cover (slotCands_nodup hrect)
    (withIdxFrom_nodup 0 lp.flatten) k hsub hcover
  rw [hres]
  rfl

theorem pooled_map_eq_slotCands {β : Type} [LinearOrder β] [DecidableEq β]
    {V k : ℕ} {lp : List (List β)} (hrect : ∀ row ∈ lp, row.length = V)
    (hkV : k ≤ V) (hk0 : 0 < k) :
    (withIdxFrom 0 (pooledVals k lp)).map (poolMap V k lp) =
      slotCands V k lp := by
  apply List.ext_getElem
  · rw [List.length_map, withIdxFrom_length, pooledVals_length hrect hkV,
      slotCands_length hrect hkV]
  · intro p h1 h2
    have hplen : p < (pooledVals k lp).length := by
      rw [List.length_map, withIdxFrom_length] at h1
      exact h1
    have hpKk : p < lp.length * k := by
      rwa [pooledVals_length hrect hkV] at hplen
    have hr : p / k < lp.length :=
      Nat.div_lt_of_lt_mul (by rwa [Nat.mul_comm] at hpKk)
    have hj : p % k < k := Nat.mod_lt _ hk0
    have hdec : p / k * k + p % k = p := by
      rw [Nat.mul_comm (p / k) k]
      exact Nat.div_add_mod p k
    have hwif : p < (withIdxFrom 0 (pooledVals k lp)).length := by
      rw [withIdxFrom_length]
      exact hplen
    have hslen : p < (slotCands V k lp).length := by
      rw [slotCands_length hrect hkV]
      exact hpKk
    have hSC := slotCands_getD hrect hkV hr hj ((pooledVals k lp)[p], 0)
    rw [hdec] at hSC
    have hPV := pooledVals_getD hrect hkV hr hj ((pooledVals k lp)[p])
    rw [hdec] at hPV
    have hval : (pooledVals k lp)[p] =
        ((topk k (lp.getD (p / k) [])).getD (p % k)
          ((pooledVals k lp)[p], 0)).1 := by
      rw [← hPV, List.getD_eq_getElem _ _ hplen]
    rw [List.getElem_map,
      withIdxFrom_getElem 0 (pooledVals k lp) p hplen hwif]
    simp only [Nat.zero_add]
    rw [← List.getD_eq_getElem (slotCands V k lp)
      ((pooledVals k lp)[p], 0) hslen, hSC]
    simp only [poolMap]
    rw [Prod.mk.injEq]
    exact ⟨hval, rfl⟩

theorem poolMap_strictMono {β : Type} [LinearOrder β] [DecidableEq β]
    {V k : ℕ} {lp : List (List β)} (hrect : ∀ row ∈ lp, row.length = V)
    (hkV : k ≤ V) (hk0 : 0 < k) :
    ∀ pp qq, ∀ hpp : pp < (pooledVals k lp).length,
      ∀ hqq : qq < (pooledVals k lp).length,
      (pooledVals k lp)[pp] = (pooledVals k lp)[qq] → pp < qq →
      (poolMap V k lp ((pooledVals k lp)[pp], pp)).2 <
        (poolMap V k lp ((pooledVals k lp)[qq], qq)).2 := by
  intro pp qq hpp hqq hval hlt
  have hppKk : pp < lp.length * k := by
    rwa [pooledVals_length hrect hkV] at hpp
  have hqqKk : qq < lp.length * k := by
    rwa [pooledVals_length hrect hkV] at hqq
  have hrp : pp / k < lp.length :=
    Nat.div_lt_of_lt_mul (by rwa [Nat.mul_comm] at hppKk)
  have hrq : qq / k < lp.length :=
    Nat.div_lt_of_lt_mul (by rwa [Nat.mul_comm] at hqqKk)
  have hjp : pp % k < k := Nat.mod_lt _ hk0
  have hjq : qq % k < k := Nat.mod_lt _ hk0
  have hdp : pp / k * k + pp % k = pp := by
    rw [Nat.mul_comm (pp / k) k]
    exact Nat.div_add_mod pp k
  have hdq : qq / k * k + qq % k = qq := by
    rw [Nat.mul_comm (qq / k) k]
    exact Nat.div_add_mod qq k
  have hstp : pp % k < (topk k (lp.getD (pp / k) [])).length := by
    rw [topk_length, getD_row_length hrect hrp]
    omega
  have hstq : qq % k < (topk k (lp.getD (qq / k) [])).length := by
    rw [topk_length, getD_row_length hrect hrq]
    omega
  have hvp : (pooledVals k lp)[pp] =
      (topk k (lp.getD (pp / k) []))[pp % k].1 := by
    have h := pooledVals_getD hrect hkV hrp hjp ((pooledVals k lp)[pp])
    rw [hdp, List.getD_eq_getElem _ _ hpp,
      List.getD_eq_getElem _ _ hstp] at h
    exact h
  have hvq : (pooledVals k lp)[qq] =
      (topk k (lp.getD (qq / k) []))[qq % k].1 := by
    have h := pooledVals_getD hrect hkV hrq hjq ((pooledVals k lp)[qq])
    rw [hdq, List.getD_eq_getElem _ _ hqq,
      List.getD_eq_getElem _ _ hstq] at h
    exact h
  have hiP : (topk k (lp.getD (pp / k) []))[pp % k].2 < V := by
    have h := mem_topk_snd_lt (List.getElem_mem hstp)
    rwa [getD_row_length hrect hrp] at h
  have hiQ : (topk k (lp.getD (qq / k) []))[qq % k].2 < V := by
    have h := mem_topk_snd_lt (List.getElem_mem hstq)
    rwa [getD_row_length hrect hrq] at h
  simp only [poolMap]
  rcases lt_trichotomy (pp / k) (qq / k) with hc | hc | hc
  · rw [List.getD_eq_getElem _ _ hstp, List.getD_eq_getElem _ _ hstq]
    have h1 : (pp / k + 1) * V <= qq / k * V :=
      Nat.mul_le_mul_right _ (by omega)
    have h2 : (pp / k + 1) * V = pp / k * V + V := by ring
    omega
  · have hjlt : pp % k < qq % k := by
      rw [hc] at hdp
      omega
    have hstp2 : pp % k < (topk k (lp.getD (qq / k) [])).length := by
      rw [topk_length, getD_row_length hrect hrq]
      omega
    have hsort : (topk k (lp.getD (qq / k) [])).Pairwise cLT :=
      topSelect_sorted (withIdxFrom_nodup 0 (lp.getD (qq / k) []))
    rw [List.pairwise_iff_getElem] at hsort
    have hcl := hsort (pp % k) (qq % k) hstp2 hstq hjlt
    have hidx : qq / k * k + pp % k = pp := by
      rw [← hc]
      exact hdp
    have hvp3 : (pooledVals k lp)[pp] =
        (topk k (lp.getD (qq / k) []))[pp % k].1 := by
      have h := pooledVals_getD hrect hkV hrq hjp ((pooledVals k lp)[pp])
      rw [hidx, List.getD_eq_getElem _ _ hpp,
        List.getD_eq_getElem _ _ hstp2] at h
      exact h
    have hveq : (topk k (lp.getD (qq / k) []))[pp % k].1 =
        (topk k (lp.getD (qq / k) []))[qq % k].1 := by
      rw [← hvp3, ← hvq]
      exact hval
    rcases hcl with hbad | hgood
    · rw [hveq] at hbad
      exact absurd hbad (lt_irrefl _)
    · have hsnd : (topk k (lp.getD (qq / k) []))[pp % k].2 <
          (topk k (lp.getD (qq / k) []))[qq % k].2 := hgood.2
      rw [hc]
      rw [List.getD_eq_getElem _ _ hstp2, List.getD_eq_getElem _ _ hstq]
      omega
  · have h : qq / k <= pp / k := by omega
    have h2 : pp / k <= qq / k := Nat.div_le_div_right (le_of_lt hlt)
    omega

theorem poolMap_hord {β : Type} [LinearOrder β] [DecidableEq β]
    {V k : ℕ} {lp : List (List β)} (hrect : ∀ row ∈ lp, row.length = V)
    (hkV : k ≤ V) (hk0 : 0 < k) :
    ∀ a ∈ withIdxFrom 0 (pooledVals k lp),
      ∀ b ∈ withIdxFrom 0 (pooledVals k lp),
      (cLT (poolMap V k lp a) (poolMap V k lp b) ↔ cLT a b) := by
  intro a ha b hb
  rcases withIdxFrom_mem.mp ha with ⟨p, hpl, rfl⟩
  rcases withIdxFrom_mem.mp hb with ⟨q, hql, rfl⟩
  simp only [Nat.zero_add]
  constructor
  · intro h
    rcases h with hlt | ⟨heq, hlt2⟩
    · exact Or.inl hlt
    · refine Or.inr ⟨heq, ?_⟩
      have hveq : (pooledVals k lp)[p] = (pooledVals k lp)[q] := heq
      rcases lt_trichotomy p q with h1 | h1 | h1
      · exact h1
      · exfalso
        subst h1
        exact lt_irrefl _ hlt2
      · exfalso
        have hmono := poolMap_strictMono hrect hkV hk0 q p hql hpl
          hveq.symm h1
        exact absurd hlt2 (not_lt.mpr (le_of_lt hmono))
  · intro h
    rcases h with hlt | ⟨heq, hlt2⟩
    · exact Or.inl hlt
    · have hveq : (pooledVals k lp)[p] = (pooledVals k lp)[q] := heq
      exact Or.inr ⟨heq,
        poolMap_strictMono hrect hkV hk0 p q hpl hql hveq hlt2⟩

theorem pooled_topk_eq {β : Type} [LinearOrder β] [DecidableEq β]
    {V k : ℕ} {lp : List (List β)} (hrect : ∀ row ∈ lp, row.length = V)
    (hkV : k ≤ V) (hk0 : 0 < k) :
    (topk k (pooledVals k lp)).map (poolMap V k lp) = topk k lp.flatten := by
  have hmap := topSelect_map (poolMap V k lp) k
    (withIdxFrom 0 (pooledVals k lp)) (withIdxFrom_nodup 0 _)
    (poolMap_hord hrect hkV hk0)
  rw [pooled_map_eq_slotCands hrect hkV hk0] at hmap
  show (topSelect k (withIdxFrom 0 (pooledVals k lp))).map (poolMap V k lp)
    = topk k lp.flatten
  rw [← hmap]
  exact topSelect_slotCands_eq hrect hkV

theorem zipWith_zero_rate {α : Type} [LinearOrderedRing α] [DecidableEq α]
    {V k : ℕ} {lp : List (List (WithBot α))}
    (hrect : ∀ row ∈ lp, row.length = V) (hkV : k ≤ V) :
    (lp.map (fun row => topk k row)).map (fun st =>
      List.zipWith (fun x q => x + ((-q : α) : WithBot α)) (st.map (·.1))
        ((List.range k).map (fun i => ((i + 1 : ℕ) : α) * 0))) =
    (lp.map (fun row => topk k row)).map (fun st => st.map (·.1)) := by
  apply List.ext_getElem
  · simp
  · intro n h1 h2
    have hn : n < lp.length := by simpa using h1
    rw [List.getElem_map, List.getElem_map, List.getElem_map,
      List.getElem_map]
    have hst : (topk k lp[n]).length = k := by
      rw [topk_length, hrect _ (List.getElem_mem hn)]
      omega
    apply List.ext_getElem
    · simp [hst]
    · intro m hm1 hm2
      rw [List.getElem_zipWith, List.getElem_map, List.getElem_map,
        List.getElem_range]
      simp [mul_zero]

theorem poolMap_div {β : Type} [LinearOrder β] [DecidableEq β]
    {V k : ℕ} {lp : List (List β)} (hrect : ∀ row ∈ lp, row.length = V)
    (hkV : k ≤ V) (hk0 : 0 < k) :
    ∀ c ∈ withIdxFrom 0 (pooledVals k lp),
      (poolMap V k lp c).2 / V = c.2 / k := by
  intro c hc
  rcases withIdxFrom_mem.mp hc with ⟨p, hpl, rfl⟩
  simp only [Nat.zero_add]
  show (p / k * V + ((topk k (lp.getD (p / k) [])).getD (p % k)
    ((pooledVals k lp)[p], 0)).2) / V = p / k
  have hV0 : 0 < V := by omega
  have hpKk : p < lp.length * k := by
    rwa [pooledVals_length hrect hkV] at hpl
  have hr : p / k < lp.length :=
    Nat.div_lt_of_lt_mul (by rwa [Nat.mul_comm] at hpKk)
  have hstp : p % k < (topk k (lp.getD (p / k) [])).length := by
    rw [topk_length, getD_row_length hrect hr]
    have := Nat.mod_lt p hk0
    omega
  have hi : ((topk k (lp.getD (p / k) [])).getD (p % k)
      ((pooledVals k lp)[p], 0)).2 < V := by
    rw [List.getD_eq_getElem _ _ hstp]
    have h := mem_topk_snd_lt (List.getElem_mem hstp)
    rwa [getD_row_length hrect hr] at h
  rw [Nat.mul_comm (p / k) V, Nat.mul_add_div hV0, Nat.div_eq_of_lt hi,
    Nat.add_zero]

theorem poolMap_tok {β : Type} [LinearOrder β] [DecidableEq β]
    {V k : ℕ} {lp : List (List β)} (hrect : ∀ row ∈ lp, row.length = V)
    (hkV : k ≤ V) (hk0 : 0 < k) :
    ∀ c ∈ withIdxFrom 0 (pooledVals k lp),
      ((lp.map (fun row => topk k row)).map
        (List.map (fun c => c.2 % V))).flatten.getD c.2 0 =
      (poolMap V k lp c).2 % V := by
  intro c hc
  rcases withIdxFrom_mem.mp hc with ⟨p, hpl, rfl⟩
  simp only [Nat.zero_add]
  show ((lp.map (fun row => topk k row)).map
      (List.map (fun c => c.2 % V))).flatten.getD p 0 =
    (p / k * V + ((topk k (lp.getD (p / k) [])).getD (p % k)
      ((pooledVals k lp)[p], 0)).2) % V
  have hV0 : 0 < V := by omega
  have hpKk : p < lp.length * k := by
    rwa [pooledVals_length hrect hkV] at hpl
  have hr : p / k < lp.length :=
    Nat.div_lt_of_lt_mul (by rwa [Nat.mul_comm] at hpKk)
  have hj : p % k < k := Nat.mod_lt _ hk0
  have hdec : p / k * k + p % k = p := by
    rw [Nat.mul_comm (p / k) k]
    exact Nat.div_add_mod p k
  have hstp : p % k < (topk k (lp.getD (p / k) [])).length := by
    rw [topk_length, getD_row_length hrect hr]
    omega
  have hblk : ∀ b ∈ (lp.map (fun row => topk k row)).map
      (List.map (fun c => c.2 % V)), b.length = k := by
    intro b hbm
    rcases List.mem_map.mp hbm with ⟨st, hst, rfl⟩
    rcases List.mem_map.mp hst with ⟨row, hrow, rfl⟩
    rw [List.length_map, topk_length, hrect row hrow]
    omega
  have hfl := getD_flatten_const 0 hblk (by simpa using hr) hj
  rw [hdec] at hfl
  rw [hfl,
    getD_map_list (List.map (fun c : β × ℕ => c.2 % V)) _ (p / k) [] []
      (by simpa using hr),
    getD_map_list (fun row => topk k row) lp (p / k) [] [] hr,
    getD_map_list (fun c : β × ℕ => c.2 % V) _ (p % k) 0
      ((pooledVals k lp)[p], 0) hstp,
    Nat.mul_comm (p / k) V, Nat.mul_add_mod]

theorem map_map_fst {β γ : Type} (g : β → γ × ℕ) (l : List β) :
    (l.map g).map (fun x => x.1) = l.map (fun c => (g c).1) := by
  rw [List.map_map]
  rfl

theorem map_map_snd_mod {β γ : Type} (V : ℕ) (g : β → γ × ℕ) (l : List β) :
    (l.map g).map (fun c => c.2 % V) = l.map (fun c => (g c).2 % V) := by
  rw [List.map_map]
  rfl

theorem map_map_snd_div {β γ : Type} (V : ℕ) (g : β → γ × ℕ) (l : List β) :
    (l.map g).map (fun c => c.2 / V) = l.map (fun c => (g c).2 / V) := by
  rw [List.map_map]
  rfl

/-- C6 (amended): for step > 0 on rectangular input with matching score rows,
and the candidate count k = min(2K, K*V-1) at most V (so the per-slot top-k
does not raise), DiverseSiblingsSearch.step with diversity_rate = 0 returns
exactly the BeamSearch.step triple on the same input.  When k > V (e.g.
K = 2, V = 3) the two differ: DiverseSiblingsSearch raises while BeamSearch
returns normally. -/
theorem dss_zero_rate_eq_beamSearch {α : Type} [LinearOrderedRing α]
    [DecidableEq α] (step : ℕ) (lprobs scores : List (List (WithBot α)))
    (hrect : ∀ row ∈ lprobs, row.length = vocabOf lprobs)
    (hsc : scores.length = lprobs.length)
    (hstep : step ≠ 0)
    (hkV : min (2 * lprobs.length) (lprobs.length * vocabOf lprobs - 1) ≤
      vocabOf lprobs) :
    DiverseSiblingsSearch.step (0 : α) step lprobs scores =
      some (BeamSearch.step step lprobs scores) := by
  have hlpA_rect : ∀ row ∈ addHistory step lprobs scores,
      row.length = vocabOf lprobs := addHistory_rect hrect
  have hlpA_len : (addHistory step lprobs scores).length = lprobs.length := by
    rw [addHistory_length, hsc]
    simp
  have hflatlen : (addHistory step lprobs scores).flatten.length =
      lprobs.length * vocabOf lprobs := by
    rw [flatten_length_const hlpA_rect, hlpA_len]
  simp only [DiverseSiblingsSearch.step, BeamSearch.step]
  rw [if_neg hstep, if_neg hstep, if_pos hkV, hflatlen]
  rcases Nat.eq_zero_or_pos
    (min (2 * lprobs.length) (lprobs.length * vocabOf lprobs - 1)) with
    hk0 | hk0
  · rw [hk0]
    simp [topk, topSelect]
  · have hzip := @zipWith_zero_rate α _ _ (vocabOf lprobs)
      (min (2 * lprobs.length) (lprobs.length * vocabOf lprobs - 1))
      (addHistory step lprobs scores) hlpA_rect hkV
    rw [hzip]
    rw [show (((addHistory step lprobs scores).map (fun row =>
        topk (min (2 * lprobs.length)
          (lprobs.length * vocabOf lprobs - 1)) row)).map
        (fun st => st.map (·.1))).flatten =
      pooledVals (min (2 * lprobs.length)
        (lprobs.length * vocabOf lprobs - 1))
        (addHistory step lprobs scores) from rfl]
    have hmain := pooled_topk_eq hlpA_rect hkV hk0
    rw [← hmain, map_map_fst, map_map_snd_mod, map_map_snd_div]
    refine congrArg some (Prod.ext ?_ (Prod.ext ?_ ?_))
    · exact List.map_congr_left (fun a ha => rfl)
    · exact List.map_congr_left (fun a ha =>
        poolMap_tok hlpA_rect hkV hk0 a (topSelect_subset a ha))
    · exact List.map_congr_left (fun a ha =>
        (poolMap_div hlpA_rect hkV hk0 a (topSelect_subset a ha)).symm)

/-- Witness for C6: on a concrete K = 2, V = 5 input at step 1 (where
k = 4 ≤ V), zero-rate diverse siblings search agrees with plain beam
search. -/
theorem dss_zero_rate_eq_beamSearch_witness :
    (∀ row ∈ c9lprobs, row.length = vocabOf c9lprobs) ∧
    c9scores.length = c9lprobs.length ∧ (1 : ℕ) ≠ 0 ∧
    DiverseSiblingsSearch.step (0 : ℤ) 1 c9lprobs c9scores =
      some (BeamSearch.step 1 c9lprobs c9scores) :=
  ⟨by decide, by decide, by decide,
   dss_zero_rate_eq_beamSearch 1 c9lprobs c9scores (by decide) (by decide)
     (by decide) (by decide)⟩

/-- Counterexample to C6 as stated: at K = 2, V = 3, step = 1 the candidate
count k = min(4, 5) = 4 exceeds V = 3, so DiverseSiblingsSearch.step with
zero diversity rate raises (per-slot torch.topk with k > dim) while
BeamSearch.step returns a normal triple on the same input. -/
theorem dss_zero_rate_counterexample :
    DiverseSiblingsSearch.step (0 : ℤ) 1 c2lprobs c2scores = none ∧
    BeamSearch.step 1 c2lprobs c2scores =
      ([((13 : ℤ) : WithBot ℤ), ((12 : ℤ) : WithBot ℤ),
        ((11 : ℤ) : WithBot ℤ), ((4 : ℤ) : WithBot ℤ)],
       [1, 2, 0, 0], [0, 0, 0, 1]) := by decide
